import Mathlib

/-!
Verification of the EMLL forest-refinement algorithm (`ForestNode.tcc`) and the
`CompressedIntegerList` codec, via a shallow embedding in Lean 4.

The refined graph produced by `ForestNode::RefineNode` is embedded as a list of
primitive nodes (constants, arithmetic, selection, multiplexing, summation) that
is evaluated front-to-back, which is exactly the topological order in which the
transformer appends nodes.  Doubles are modelled as rationals; the split rules
and edge predictors of the forest are abstracted as semantic functions of the
model input, matching the spec's treatment of primitive sub-graphs as external
collaborators specified at their interface boundary.
-/

namespace ELL

/-! ## Definitions -/

/-- A value flowing on a port: a double (modelled as `ℚ`) or a boolean. -/
inductive Val where
  | q (x : ℚ)
  | b (x : Bool)
  deriving DecidableEq, Repr

/-- A reference to one element of one node's output: (node id, element index). -/
abbrev PortRef := Nat × Nat

/-- `PortElements`: an ordered, possibly concatenated sequence of element references. -/
abbrev PE := List PortRef

/-- Read a double off a value (booleans read as 0, matching type separation in the source). -/
def Val.toQ : Val → ℚ
  | .q x => x
  | .b _ => 0

/-- Read a boolean off a value. -/
def Val.toB : Val → Bool
  | .b x => x
  | .q _ => false

/-- The primitive nodes that `ForestNode::RefineNode` adds to the target model.
Edge predictors and split rules enter as semantic functions of the model input,
standing for the primitive sub-graphs built by `AddNodeToModelTransformer`. -/
inductive PrimNode (α : Type) where
  | constantNode (c : ℚ)
  | edgePredictorNode (f : α → ℚ)
  | splitRuleNode (f : α → Bool)
  | binaryAddNode (a b : PE)
  | elementSelectorNode (elts : PE) (sel : PE)
  | notNode (xs : PE)
  | multiplexorNode (inp sel : PE)
  | sumNode (elts : PE)

/-- Read the value of a single port reference from the outputs computed so far. -/
def readRef (outs : List (List Val)) (r : PortRef) : Val :=
  (outs.getD r.1 []).getD r.2 (Val.q 0)

/-- The value sequence denoted by a `PortElements` view, given all node outputs. -/
def denote (outs : List (List Val)) (pe : PE) : List Val :=
  pe.map (readRef outs)

/-- The doubles denoted by a `PortElements<double>`. -/
def denoteQ (outs : List (List Val)) (pe : PE) : List ℚ :=
  (denote outs pe).map Val.toQ

/-- The booleans denoted by a `PortElements<bool>`. -/
def denoteB (outs : List (List Val)) (pe : PE) : List Bool :=
  (denote outs pe).map Val.toB

/-- Evaluate one primitive node given the outputs of all earlier nodes. -/
def evalPrim {α : Type} (x : α) (prev : List (List Val)) : PrimNode α → List Val
  | .constantNode c => [.q c]
  | .edgePredictorNode f => [.q (f x)]
  | .splitRuleNode f => [.b (f x)]
  | .binaryAddNode a b =>
      List.zipWith (fun u v => Val.q (u.toQ + v.toQ)) (denote prev a) (denote prev b)
  | .elementSelectorNode elts sel =>
      let idx : Nat := if ((denote prev sel).headD (Val.q 0)).toB then 1 else 0
      [Val.q ((denote prev elts).getD idx (Val.q 0)).toQ]
  | .notNode xs => (denote prev xs).map (fun v => Val.b (!v.toB))
  | .multiplexorNode inp sel =>
      let p := ((denote prev inp).headD (Val.q 0)).toB
      let s := ((denote prev sel).headD (Val.q 0)).toB
      [Val.b (p && !s), Val.b (p && s)]
  | .sumNode elts => [Val.q (((denote prev elts).map Val.toQ).sum)]

/-- Evaluate a node list left to right, accumulating each node's outputs. -/
def evalFrom {α : Type} (x : α) (acc : List (List Val)) : List (PrimNode α) → List (List Val)
  | [] => acc
  | n :: rest => evalFrom x (acc ++ [evalPrim x acc n]) rest

/-- Evaluate a whole model in topological (construction) order. -/
def evalNodes {α : Type} (x : α) (ns : List (PrimNode α)) : List (List Val) :=
  evalFrom x [] ns

/-- An outgoing edge of an interior node: its edge predictor (as a semantic
function of the input) and its target, either a leaf or an interior node index. -/
structure ForestEdge (α : Type) where
  predictor : α → ℚ
  targetIsInterior : Bool
  targetNodeIndex : Nat

instance {α : Type} : Inhabited (ForestEdge α) := ⟨⟨fun _ => 0, false, 0⟩⟩

/-- An interior node: split rule, two outgoing edges, and its first edge index. -/
structure InteriorNode (α : Type) where
  splitRule : α → Bool
  outgoingEdges : List (ForestEdge α)
  firstEdgeIndex : Nat

instance {α : Type} : Inhabited (InteriorNode α) := ⟨⟨fun _ => false, [], 0⟩⟩

/-- A forest predictor: flat ordered interior-node collection, root indices, bias. -/
structure ForestPredictor (α : Type) where
  interiorNodes : List (InteriorNode α)
  rootIndices : List Nat
  bias : ℚ

/-- `NumTrees()`: number of trees, one per root index. -/
def numTrees {α : Type} (f : ForestPredictor α) : Nat := f.rootIndices.length

/-- `NumEdges()`: two outgoing edges per interior node. -/
def numEdges {α : Type} (f : ForestPredictor α) : Nat := 2 * f.interiorNodes.length

/-- The interior node at a given index (defaulted out of range). -/
def nodeAt {α : Type} (f : ForestPredictor α) (i : Nat) : InteriorNode α :=
  f.interiorNodes.getD i default

/-- All (source node, edge position) pairs, in edge-index order, whose edge
targets interior node `j` — "edges anywhere in the forest whose target is j". -/
def incomingEdges {α : Type} (f : ForestPredictor α) (j : Nat) : List (Nat × Nat) :=
  ((List.range f.interiorNodes.length).map fun i =>
    (List.range (nodeAt f i).outgoingEdges.length).filterMap fun pos =>
      let e := (nodeAt f i).outgoingEdges.getD pos default
      if e.targetIsInterior && e.targetNodeIndex == j then some (i, pos) else none).flatten

/-- The structural invariants of spec §3: every interior node has exactly two
outgoing edges, first edge indices are the contiguous pairs `2*i`, interior edge
targets are strictly descending-ordered valid indices (parents precede
children), each node has at most one incoming edge (trees), and the root
indices are exactly the interior nodes with no incoming edge. -/
def validForest {α : Type} (f : ForestPredictor α) : Bool :=
  let K := f.interiorNodes.length
  ((List.range K).all fun i =>
    let n := nodeAt f i
    n.outgoingEdges.length == 2 &&
    n.firstEdgeIndex == 2 * i &&
    (n.outgoingEdges.all fun e =>
      !e.targetIsInterior || (decide (i < e.targetNodeIndex) && decide (e.targetNodeIndex < K))) &&
    decide ((incomingEdges f i).length ≤ 1) &&
    (decide (i ∈ f.rootIndices) == (incomingEdges f i).isEmpty)) &&
  (f.rootIndices.all fun r => decide (r < K))

/-- The outgoing-edge position the evaluation takes at node `i`: edge 1 when the
split rule fires, edge 0 otherwise (spec §8 example: split true → edge 1). -/
def takenPos {α : Type} (f : ForestPredictor α) (x : α) (i : Nat) : Nat :=
  if (nodeAt f i).splitRule x then 1 else 0

/-- Modelled from the spec: the value contributed by the subtree rooted at an
interior node — the sum of edge-predictor outputs along the path the input
takes (spec §4.2 steps 1–2, `ForestPredictor::Predict(input, rootIndex)`). -/
def nodeValueAux {α : Type} (f : ForestPredictor α) (x : α) : Nat → Nat → ℚ
  | 0, _ => 0
  | fuel + 1, i =>
      let e := (nodeAt f i).outgoingEdges.getD (takenPos f x i) default
      e.predictor x + (if e.targetIsInterior then nodeValueAux f x fuel e.targetNodeIndex else 0)

/-- Modelled from the spec: `Predict(input, rootIndex)`, the value of one tree. -/
def treeValue {α : Type} (f : ForestPredictor α) (x : α) (i : Nat) : ℚ :=
  nodeValueAux f x (f.interiorNodes.length - i) i

/-- Modelled from the spec: `ForestPredictor::Predict(input)` — the sum over all
tree roots of the tree values, plus the bias (spec §4.2 Phase C semantics). -/
def predict {α : Type} (f : ForestPredictor α) (x : α) : ℚ :=
  (f.rootIndices.map (treeValue f x)).sum + f.bias

/-- Modelled from the spec: the edge indices on the path evaluation takes from
node `i` downward (glossary: "the path taken by evaluation"). -/
def pathEdgesAux {α : Type} (f : ForestPredictor α) (x : α) : Nat → Nat → List Nat
  | 0, _ => []
  | fuel + 1, i =>
      let n := nodeAt f i
      let e := n.outgoingEdges.getD (takenPos f x i) default
      (n.firstEdgeIndex + takenPos f x i) ::
        (if e.targetIsInterior then pathEdgesAux f x fuel e.targetNodeIndex else [])

/-- Modelled from the spec: `ForestPredictor::GetEdgeIndicatorVector(input)` —
one boolean per edge, true iff the edge lies on the path taken from some root. -/
def edgeIndicatorVec {α : Type} (f : ForestPredictor α) (x : α) : List Bool :=
  (List.range (numEdges f)).map fun e =>
    f.rootIndices.any fun r =>
      (pathEdgesAux f x (f.interiorNodes.length - r) r).contains e

/-- Whether evaluation reaches interior node `i`: true at a parentless node,
and propagated from the (unique) parent when the parent's taken edge is the
incoming edge.  Fuel `i + 1` suffices since parents have smaller indices. -/
def activeAux {α : Type} (f : ForestPredictor α) (x : α) : Nat → Nat → Bool
  | 0, _ => true
  | fuel + 1, i =>
      match (incomingEdges f i).head? with
      | none => true
      | some (p, pos) => activeAux f x fuel p && (takenPos f x p == pos)

/-- Whether evaluation reaches interior node `i`. -/
def activeNode {α : Type} (f : ForestPredictor α) (x : α) (i : Nat) : Bool :=
  activeAux f x (i + 1) i

/-- `Compute`'s first output: the forest prediction. -/
def computeOutput {α : Type} (f : ForestPredictor α) (x : α) : List ℚ :=
  [predict f x]

/-- `Compute`'s second output: per-tree predictions in root-index order. -/
def computeTreeOutputs {α : Type} (f : ForestPredictor α) (x : α) : List ℚ :=
  f.rootIndices.map (treeValue f x)

/-- `Compute`'s third output: the edge indicator vector. -/
def computeEdgeIndicatorVector {α : Type} (f : ForestPredictor α) (x : α) : List Bool :=
  edgeIndicatorVec f x

/-- The three output ports of a `ForestNode`. -/
inductive PortName where
  | output
  | treeOutputs
  | edgeIndicatorVector
  deriving DecidableEq, Repr

/-- Phase A state: the target model plus the per-interior-node references
`interiorNodeSplitIndicators` and `interiorNodeSubModels` (lines 44–45). -/
structure AState (α : Type) where
  model : List (PrimNode α)
  splitInds : List PE
  subModels : List PE

/-- Initial phase A state: empty model, default-constructed reference vectors. -/
def initAState {α : Type} (f : ForestPredictor α) : AState α :=
  { model := []
    splitInds := List.replicate f.interiorNodes.length []
    subModels := List.replicate f.interiorNodes.length [] }

/-- Lines 54–70: build the sub-model for one outgoing edge and append its
output to `edgeOutputs` — the edge predictor node, plus, for an interior
target, an addition with the target's already-computed sub-model. -/
def refineEdge {α : Type} (subModels : List PE) (st : List (PrimNode α) × PE)
    (e : ForestEdge α) : List (PrimNode α) × PE :=
  let epId := st.1.length
  let model := st.1 ++ [.edgePredictorNode e.predictor]
  if e.targetIsInterior then
    let elements := subModels.getD e.targetNodeIndex []
    let sumId := model.length
    (model ++ [.binaryAddNode [(epId, 0)] elements], st.2 ++ [(sumId, 0)])
  else
    (model, st.2 ++ [(epId, 0)])

/-- Lines 50–78: one iteration of the bottom-up loop at `nodeIndex`. -/
def stepA {α : Type} (f : ForestPredictor α) (st : AState α) (nodeIndex : Nat) : AState α :=
  let n := nodeAt f nodeIndex
  let me := n.outgoingEdges.foldl (refineEdge st.subModels) (st.model, [])
  let srId := me.1.length
  let model := me.1 ++ [.splitRuleNode n.splitRule]
  let splitInds := st.splitInds.set nodeIndex [(srId, 0)]
  let selId := model.length
  let model := model ++ [.elementSelectorNode me.2 [(srId, 0)]]
  let subModels := st.subModels.set nodeIndex [(selId, 0)]
  { model, splitInds, subModels }

/-- Lines 48–79: the bottom-up loop; `phaseA f n` has processed the interior
nodes `K-1, K-2, …, K-n` (in this order), i.e. all indices `≥ K - n`. -/
def phaseA {α : Type} (f : ForestPredictor α) : Nat → AState α
  | 0 => initAState f
  | n + 1 => stepA f (phaseA f n) (f.interiorNodes.length - 1 - n)

/-- Phase B state: the model, `edgeIndicatorSubModels` (line 82) and
`incomingEdgeIndices` (line 85, `none` standing for the -1 sentinel). -/
structure BState (α : Type) where
  model : List (PrimNode α)
  edgeInd : List PE
  incoming : List (Option Nat)

/-- Lines 82–85: indicator references empty, every node marked as a root. -/
def initBState {α : Type} (f : ForestPredictor α) (sa : AState α) : BState α :=
  { model := sa.model
    edgeInd := List.replicate (numEdges f) []
    incoming := List.replicate f.interiorNodes.length none }

/-- Lines 86–125: one iteration of the forward loop at `nodeIndex`: the NOT
node (root) or 2-output multiplexor (non-root) producing the two child edge
indicators, stored at the node's first edge index, then the parent recording. -/
def stepB {α : Type} (f : ForestPredictor α) (splitInds : List PE) (st : BState α)
    (nodeIndex : Nat) : BState α :=
  let n := nodeAt f nodeIndex
  let edgeSelector := splitInds.getD nodeIndex []
  let mc : List (PrimNode α) × PE × PE :=
    match st.incoming.getD nodeIndex none with
    | none =>
        let notId := st.model.length
        (st.model ++ [.notNode edgeSelector], [(notId, 0)], edgeSelector)
    | some parentEdgeIndex =>
        let parentIndicator := st.edgeInd.getD parentEdgeIndex []
        let muxId := st.model.length
        (st.model ++ [.multiplexorNode parentIndicator edgeSelector],
          [(muxId, 0)], [(muxId, 1)])
  let fei := n.firstEdgeIndex
  let edgeInd := (st.edgeInd.set fei mc.2.1).set (fei + 1) mc.2.2
  let incoming := (List.range n.outgoingEdges.length).foldl
    (fun inc pos =>
      let e := n.outgoingEdges.getD pos default
      if e.targetIsInterior then inc.set e.targetNodeIndex (some (fei + pos)) else inc)
    st.incoming
  { model := mc.1, edgeInd, incoming }

/-- Lines 86–125: the forward loop; `phaseB f splitInds sa n` has processed the
interior nodes `0, 1, …, n-1`. -/
def phaseB {α : Type} (f : ForestPredictor α) (splitInds : List PE) (sa : AState α) :
    Nat → BState α
  | 0 => initBState f sa
  | n + 1 => stepB f splitInds (phaseB f splitInds sa n) n

/-- Everything `RefineNode` leaves behind: the target model, the ids of the bias
constant and the summing node, the summing node's inputs, and the three
`MapNodeOutput` registrations of lines 145–147 in call order. -/
structure RefineResult (α : Type) where
  model : List (PrimNode α)
  biasNodeId : Nat
  sumNodeId : Nat
  sumNodeInputs : PE
  outputPE : PE
  treeOutputsPE : PE
  edgeIndicatorPE : PE
  mapCalls : List (PortName × PE)

/-- Lines 37–148: the whole of `RefineNode` — phases A and B, then assembly
(lines 126–147): collect the indicator vector, concatenate the root sub-models,
append the bias constant, sum, and register the three output mappings. -/
def refineNode {α : Type} (f : ForestPredictor α) : RefineResult α :=
  let K := f.interiorNodes.length
  let sa := phaseA f K
  let sb := phaseB f sa.splitInds sa K
  let edgeIndicatorVectorElements := sb.edgeInd.flatten
  let treeSubModels := f.rootIndices.foldl (fun pe r => pe ++ sa.subModels.getD r []) []
  let individualTreeOutputs := treeSubModels
  let biasId := sb.model.length
  let model := sb.model ++ [.constantNode f.bias]
  let treeSubModels' := treeSubModels ++ [(biasId, 0)]
  let sumId := model.length
  let model := model ++ [.sumNode treeSubModels']
  { model
    biasNodeId := biasId
    sumNodeId := sumId
    sumNodeInputs := treeSubModels'
    outputPE := [(sumId, 0)]
    treeOutputsPE := individualTreeOutputs
    edgeIndicatorPE := edgeIndicatorVectorElements
    mapCalls := [(.output, [(sumId, 0)]), (.treeOutputs, individualTreeOutputs),
                 (.edgeIndicatorVector, edgeIndicatorVectorElements)] }

/-- `ForestNode::Copy` (lines 27–35): the output ports it registers with
`MapNodeOutput`, in call order — one registration per port of the new copy. -/
def copyMapCalls : List PortName :=
  [.output, .treeOutputs, .edgeIndicatorVector]

/-- The spec-level path recursion, stated without fuel. -/
def pathEdges {α : Type} (f : ForestPredictor α) (x : α) (i : Nat) : List Nat :=
  pathEdgesAux f x (f.interiorNodes.length - i) i

/-- A `PortElements` is well formed for a model of `len` nodes when every
reference points at an existing node. -/
def wfPE (pe : PE) (len : Nat) : Prop := ∀ r ∈ pe, r.1 < len

/-- Invariant of the bottom-up loop after `n` iterations: the entries for the
already visited interior nodes (the `n` largest indices) hold singleton
references to the split-rule indicator and to the node-value sub-model, whose
evaluations are the split-rule value and the spec-level subtree value. -/
structure AInvP {α : Type} (f : ForestPredictor α) (n : Nat) (st : AState α) : Prop where
  lenS : st.splitInds.length = f.interiorNodes.length
  lenM : st.subModels.length = f.interiorNodes.length
  fresh : ∀ j, j < f.interiorNodes.length - n →
    st.splitInds.getD j [] = [] ∧ st.subModels.getD j [] = []
  splitFact : ∀ j, f.interiorNodes.length - n ≤ j → j < f.interiorNodes.length →
    ∃ id, st.splitInds.getD j [] = [(id, 0)] ∧ id < st.model.length ∧
      ∀ x, readRef (evalNodes x st.model) (id, 0) = Val.b ((nodeAt f j).splitRule x)
  subFact : ∀ j, f.interiorNodes.length - n ≤ j → j < f.interiorNodes.length →
    ∃ id, st.subModels.getD j [] = [(id, 0)] ∧ id < st.model.length ∧
      ∀ x, readRef (evalNodes x st.model) (id, 0) = Val.q (treeValue f x j)

/-- Invariant of the forward (edge indicator) loop after `n` iterations, on top
of the completed phase A state `sa`.  The `incoming` vector holds the parent
edge index for every node whose parent has been visited; the indicator entries
of visited nodes evaluate to "this edge lies on the taken path", and are wired
through a NOT node (roots) or a single 2-output multiplexor (non-roots). -/
structure BInvP {α : Type} (f : ForestPredictor α) (sa : AState α) (n : Nat)
    (st : BState α) : Prop where
  ext : ∃ tail, st.model = sa.model ++ tail
  lenE : st.edgeInd.length = numEdges f
  lenI : st.incoming.length = f.interiorNodes.length
  incomingFact : ∀ j, j < f.interiorNodes.length →
    st.incoming.getD j none = (match (incomingEdges f j).head? with
      | none => none
      | some (p, pos) => if p < n then some (2 * p + pos) else none)
  unvisited : ∀ j, n ≤ j → j < f.interiorNodes.length →
    st.edgeInd.getD (2 * j) [] = [] ∧ st.edgeInd.getD (2 * j + 1) [] = []
  visited : ∀ j, j < n → j < f.interiorNodes.length →
    wfPE (st.edgeInd.getD (2 * j) []) st.model.length ∧
    wfPE (st.edgeInd.getD (2 * j + 1) []) st.model.length ∧
    (∀ x, denoteB (evalNodes x st.model) (st.edgeInd.getD (2 * j) []) =
      [activeNode f x j && !((nodeAt f j).splitRule x)]) ∧
    (∀ x, denoteB (evalNodes x st.model) (st.edgeInd.getD (2 * j + 1) []) =
      [activeNode f x j && (nodeAt f j).splitRule x])
  structFact : ∀ j, j < n → j < f.interiorNodes.length →
    (incomingEdges f j = [] →
      ∃ m, m < st.model.length ∧ st.edgeInd.getD (2 * j) [] = [(m, 0)] ∧
        st.model[m]? = some (.notNode (sa.splitInds.getD j [])) ∧
        st.edgeInd.getD (2 * j + 1) [] = sa.splitInds.getD j []) ∧
    (∀ p pos, (incomingEdges f j).head? = some (p, pos) →
      ∃ m, m < st.model.length ∧ st.edgeInd.getD (2 * j) [] = [(m, 0)] ∧
        st.edgeInd.getD (2 * j + 1) [] = [(m, 1)] ∧
        st.model[m]? = some (.multiplexorNode (st.edgeInd.getD (2 * p + pos) [])
          (sa.splitInds.getD j [])))

/-- The completed phase A state used by `refineNode`. -/
def phaseAFinal {α : Type} (f : ForestPredictor α) : AState α :=
  phaseA f f.interiorNodes.length

/-- The completed phase B state used by `refineNode`. -/
def phaseBFinal {α : Type} (f : ForestPredictor α) : BState α :=
  phaseB f (phaseAFinal f).splitInds (phaseAFinal f) f.interiorNodes.length

/-- The spec §8 example: one root with split rule `input > 0`, leaf edges with
constant predictors −1 and +2, bias 1/2. -/
def exampleForest : ForestPredictor ℚ :=
  { interiorNodes := [
      { splitRule := fun x => decide (x > 0)
        outgoingEdges := [⟨fun _ => -1, false, 0⟩, ⟨fun _ => 2, false, 0⟩]
        firstEdgeIndex := 0 }]
    rootIndices := [0]
    bias := 1/2 }

/-- A two-level tree: the root's edge 0 leads to a second interior node. -/
def exampleForest2 : ForestPredictor ℚ :=
  { interiorNodes := [
      { splitRule := fun x => decide (x > 0)
        outgoingEdges := [⟨fun _ => 1, true, 1⟩, ⟨fun _ => 2, false, 0⟩]
        firstEdgeIndex := 0 },
      { splitRule := fun x => decide (x > 10)
        outgoingEdges := [⟨fun _ => 4, false, 0⟩, ⟨fun _ => 8, false, 0⟩]
        firstEdgeIndex := 2 }]
    rootIndices := [0]
    bias := 100 }

/-- A forest with zero trees. -/
def emptyForest : ForestPredictor ℚ :=
  { interiorNodes := []
    rootIndices := []
    bias := 1/2 }

/-- Modelled from the spec: the variable-width encoding of one non-negative
delta — 7-bit groups, low group first, high bit set on every non-final byte
("a variable-width encoding chosen to minimize space for small deltas"). -/
def encodeDeltaAux : Nat → Nat → List Nat
  | 0, _ => []
  | fuel + 1, n => if n < 128 then [n] else (n % 128 + 128) :: encodeDeltaAux fuel (n / 128)

/-- The byte encoding of one delta. -/
def encodeDelta (n : Nat) : List Nat := encodeDeltaAux (n + 1) n

/-- Modelled from the spec: decoding one delta off the front of the buffer,
returning the delta and the remaining bytes, or `none` at the buffer end. -/
def decodeDelta : List Nat → Option (Nat × List Nat)
  | [] => none
  | b :: rest =>
      if b < 128 then some (b, rest)
      else match decodeDelta rest with
        | none => none
        | some (v, rest') => some (b - 128 + 128 * v, rest')

/-- Modelled from the spec: the persistent state of a `CompressedIntegerList` —
the delta-encoded byte buffer `_mem`, the running `_last`, and `_size`. -/
structure CompressedIntegerList where
  mem : List Nat
  last : Nat
  size : Nat
  deriving DecidableEq, Repr

/-- A default-constructed, empty list. -/
def emptyCIL : CompressedIntegerList := ⟨[], 0, 0⟩

/-- The invalid-argument condition `PushBack` signals on a decreasing push. -/
inductive PushError where
  | invalidArgument
  deriving DecidableEq, Repr

/-- Modelled from the spec: `PushBack(v)` — the defensive check `v ≥ _last`
signals an invalid-argument condition before any mutation; otherwise the delta
`v - _last` is appended, `_last` becomes `v` and `_size` grows by one. -/
def PushBack (l : CompressedIntegerList) (v : Nat) :
    Except PushError CompressedIntegerList :=
  if v < l.last then .error .invalidArgument
  else .ok ⟨l.mem ++ encodeDelta (v - l.last), v, l.size + 1⟩

/-- The list object as observed after a `PushBack` call: unchanged when the
call signalled an error (the check precedes every mutation). -/
def pushState (l : CompressedIntegerList) (v : Nat) : CompressedIntegerList :=
  match PushBack l v with
  | .error _ => l
  | .ok l' => l'

/-- `Size()`. -/
def Size (l : CompressedIntegerList) : Nat := l.size

/-- Modelled from the spec: `Max()` — the most recently pushed value, `0` for
an empty list. -/
def Max (l : CompressedIntegerList) : Nat := l.last

/-- Modelled from the spec: the iterator state — the cursor into the remaining
bytes, the current decoded value, and validity. -/
structure CILIterator where
  rest : List Nat
  value : Nat
  valid : Bool
  deriving DecidableEq, Repr

/-- `IsValid()`. -/
def IsValid (it : CILIterator) : Bool := it.valid

/-- `Get()` — the value of the current iterate. -/
def Get (it : CILIterator) : Nat := it.value

/-- Modelled from the spec: `GetIterator()` — a cursor at the first entry, or
immediately invalid when the list is empty. -/
def GetIterator (l : CompressedIntegerList) : CILIterator :=
  match decodeDelta l.mem with
  | none => ⟨[], 0, false⟩
  | some (d, rest) => ⟨rest, d, true⟩

/-- Modelled from the spec: `Next()` — decode the next delta and add it to the
running value; past the end the iterator becomes permanently invalid. -/
def Next (it : CILIterator) : CILIterator :=
  if !it.valid then it
  else match decodeDelta it.rest with
    | none => ⟨[], it.value, false⟩
    | some (d, rest') => ⟨rest', it.value + d, true⟩

/-- The values produced by repeatedly calling `Get`/`Next`, up to a fuel. -/
def iterToList : Nat → CILIterator → List Nat
  | 0, _ => []
  | fuel + 1, it => if it.valid then it.value :: iterToList fuel (Next it) else []

/-- `n` calls of `Next`. -/
def advanceN : Nat → CILIterator → CILIterator
  | 0, it => it
  | n + 1, it => advanceN n (Next it)

/-- Pushing a whole sequence in order; stops at the first error. -/
def pushAll (l : CompressedIntegerList) : List Nat → Except PushError CompressedIntegerList
  | [] => .ok l
  | v :: vs =>
      match PushBack l v with
      | .error e => .error e
      | .ok l' => pushAll l' vs

/-- The byte buffer holding the deltas of a value sequence w.r.t. `prev`. -/
def ofListAux (prev : Nat) : List Nat → List Nat
  | [] => []
  | v :: vs => encodeDelta (v - prev) ++ ofListAux v vs

/-- A non-decreasing check for the pushed sequence. -/
def nonDecreasing : List Nat → Bool
  | [] => true
  | [_] => true
  | a :: b :: t => decide (a ≤ b) && nonDecreasing (b :: t)

/-- The list of the spec §8 scenario after pushes 0, 0, 3, 3, 10. -/
def exampleCIL : CompressedIntegerList := ⟨[0, 0, 3, 0, 7], 10, 5⟩

/-! ## Theorems -/

theorem evalFrom_append {α : Type} (x : α) (acc : List (List Val))
    (ns ms : List (PrimNode α)) :
    evalFrom x acc (ns ++ ms) = evalFrom x (evalFrom x acc ns) ms := by
  induction ns generalizing acc with
  | nil => simp [evalFrom]
  | cons n rest ih => simp [evalFrom, ih]

theorem evalFrom_extends {α : Type} (x : α) (acc : List (List Val))
    (ns : List (PrimNode α)) : ∃ tail, evalFrom x acc ns = acc ++ tail := by
  induction ns generalizing acc with
  | nil => exact ⟨[], by simp [evalFrom]⟩
  | cons n rest ih =>
      obtain ⟨tail, htail⟩ := ih (acc ++ [evalPrim x acc n])
      exact ⟨[evalPrim x acc n] ++ tail, by simp [evalFrom, htail]⟩

theorem length_evalFrom {α : Type} (x : α) (acc : List (List Val))
    (ns : List (PrimNode α)) :
    (evalFrom x acc ns).length = acc.length + ns.length := by
  induction ns generalizing acc with
  | nil => simp [evalFrom]
  | cons n rest ih => simp [evalFrom, ih]; omega

theorem length_evalNodes {α : Type} (x : α) (ns : List (PrimNode α)) :
    (evalNodes x ns).length = ns.length := by
  simp [evalNodes, length_evalFrom]

theorem evalNodes_append {α : Type} (x : α) (ns ms : List (PrimNode α)) :
    ∃ tail, evalNodes x (ns ++ ms) = evalNodes x ns ++ tail := by
  rw [evalNodes, evalFrom_append]
  exact evalFrom_extends x (evalNodes x ns) ms

theorem evalNodes_snoc {α : Type} (x : α) (ns : List (PrimNode α)) (n : PrimNode α) :
    evalNodes x (ns ++ [n]) = evalNodes x ns ++ [evalPrim x (evalNodes x ns) n] := by
  rw [evalNodes, evalFrom_append]
  simp [evalFrom, evalNodes]

theorem readRef_append (outs tail : List (List Val)) (r : PortRef)
    (h : r.1 < outs.length) : readRef (outs ++ tail) r = readRef outs r := by
  unfold readRef
  simp only [List.getD_eq_getElem?_getD]
  rw [List.getElem?_append_left h]

theorem denote_append (outs tail : List (List Val)) (pe : PE)
    (h : ∀ r ∈ pe, r.1 < outs.length) :
    denote (outs ++ tail) pe = denote outs pe := by
  unfold denote
  exact List.map_congr_left fun r hr => readRef_append outs tail r (h r hr)

/-- Denotations of well-formed `PortElements` are stable under extending the model. -/
theorem denote_evalNodes_append {α : Type} (x : α) (ns ms : List (PrimNode α)) (pe : PE)
    (h : ∀ r ∈ pe, r.1 < ns.length) :
    denote (evalNodes x (ns ++ ms)) pe = denote (evalNodes x ns) pe := by
  obtain ⟨tail, htail⟩ := evalNodes_append x ns ms
  rw [htail]
  exact denote_append _ _ _ (by simpa [length_evalNodes] using h)

theorem readRef_last {α : Type} (x : α) (ns : List (PrimNode α)) (n : PrimNode α) (j : Nat) :
    readRef (evalNodes x (ns ++ [n])) (ns.length, j) =
      (evalPrim x (evalNodes x ns) n).getD j (Val.q 0) := by
  rw [evalNodes_snoc]
  unfold readRef
  have hl : (evalNodes x ns).length = ns.length := length_evalNodes x ns
  simp only [List.getD_eq_getElem?_getD]
  rw [List.getElem?_append_right (by omega : (evalNodes x ns).length ≤ (ns.length, j).1)]
  simp [hl]

/-! ### Consequences of the structural invariants -/
theorem valid_unpack {α : Type} {f : ForestPredictor α} (hf : validForest f = true)
    {i : Nat} (hi : i < f.interiorNodes.length) :
    (nodeAt f i).outgoingEdges.length = 2 ∧
    (nodeAt f i).firstEdgeIndex = 2 * i ∧
    (∀ e ∈ (nodeAt f i).outgoingEdges, e.targetIsInterior = true →
      i < e.targetNodeIndex ∧ e.targetNodeIndex < f.interiorNodes.length) ∧
    (incomingEdges f i).length ≤ 1 ∧
    (i ∈ f.rootIndices ↔ incomingEdges f i = []) := by
  unfold validForest at hf
  simp only [Bool.and_eq_true, List.all_eq_true, List.mem_range, beq_iff_eq,
    decide_eq_true_eq] at hf
  obtain ⟨⟨⟨⟨h1, h2⟩, h3⟩, h4⟩, h5⟩ := hf.1 i hi
  refine ⟨h1, h2, ?_, h4, ?_⟩
  · intro e he hint
    have := h3 e he
    simp only [hint, Bool.not_true, Bool.false_or, Bool.and_eq_true, decide_eq_true_eq] at this
    exact this
  · rw [← decide_eq_true_iff (p := i ∈ f.rootIndices), h5, List.isEmpty_iff]

theorem valid_edges_len {α : Type} {f : ForestPredictor α} (hf : validForest f = true)
    {i : Nat} (hi : i < f.interiorNodes.length) :
    (nodeAt f i).outgoingEdges.length = 2 :=
  (valid_unpack hf hi).1

theorem valid_fei {α : Type} {f : ForestPredictor α} (hf : validForest f = true)
    {i : Nat} (hi : i < f.interiorNodes.length) :
    (nodeAt f i).firstEdgeIndex = 2 * i :=
  (valid_unpack hf hi).2.1

theorem valid_target {α : Type} {f : ForestPredictor α} (hf : validForest f = true)
    {i : Nat} (hi : i < f.interiorNodes.length) {e : ForestEdge α}
    (he : e ∈ (nodeAt f i).outgoingEdges) (ht : e.targetIsInterior = true) :
    i < e.targetNodeIndex ∧ e.targetNodeIndex < f.interiorNodes.length :=
  (valid_unpack hf hi).2.2.1 e he ht

theorem valid_incoming_len {α : Type} {f : ForestPredictor α} (hf : validForest f = true)
    {i : Nat} (hi : i < f.interiorNodes.length) :
    (incomingEdges f i).length ≤ 1 :=
  (valid_unpack hf hi).2.2.2.1

theorem valid_root_iff {α : Type} {f : ForestPredictor α} (hf : validForest f = true)
    {i : Nat} (hi : i < f.interiorNodes.length) :
    i ∈ f.rootIndices ↔ incomingEdges f i = [] :=
  (valid_unpack hf hi).2.2.2.2

theorem valid_root_lt {α : Type} {f : ForestPredictor α} (hf : validForest f = true)
    {r : Nat} (hr : r ∈ f.rootIndices) : r < f.interiorNodes.length := by
  unfold validForest at hf
  simp only [Bool.and_eq_true, List.all_eq_true, List.mem_range, decide_eq_true_eq] at hf
  exact hf.2 r hr

theorem mem_incomingEdges {α : Type} {f : ForestPredictor α} {j p pos : Nat} :
    (p, pos) ∈ incomingEdges f j ↔
      p < f.interiorNodes.length ∧ pos < (nodeAt f p).outgoingEdges.length ∧
      ((nodeAt f p).outgoingEdges.getD pos default).targetIsInterior = true ∧
      ((nodeAt f p).outgoingEdges.getD pos default).targetNodeIndex = j := by
  unfold incomingEdges
  simp only [List.mem_flatten, List.mem_map, List.mem_range]
  constructor
  · rintro ⟨l, ⟨i, hi, rfl⟩, hmem⟩
    rw [List.mem_filterMap] at hmem
    obtain ⟨pos', hpos', hout⟩ := hmem
    by_cases hc : (((nodeAt f i).outgoingEdges.getD pos' default).targetIsInterior &&
        ((nodeAt f i).outgoingEdges.getD pos' default).targetNodeIndex == j) = true
    · simp only [hc, if_pos] at hout
      obtain ⟨rfl, rfl⟩ : i = p ∧ pos' = pos := by
        constructor <;> [exact congrArg Prod.fst (Option.some.inj hout);
          exact congrArg Prod.snd (Option.some.inj hout)]
      simp only [Bool.and_eq_true, beq_iff_eq] at hc
      exact ⟨hi, List.mem_range.mp hpos', hc.1, hc.2⟩
    · simp only [if_neg hc] at hout
      exact absurd hout (by simp)
  · rintro ⟨hp, hpos, hint, htgt⟩
    refine ⟨_, ⟨p, hp, rfl⟩, ?_⟩
    rw [List.mem_filterMap]
    refine ⟨pos, List.mem_range.mpr hpos, ?_⟩
    simp only [hint, htgt, beq_self_eq_true, Bool.and_self, if_pos]

/-- Under the invariants, the unique incoming edge of `j` is the head of
`incomingEdges f j`. -/
theorem incoming_head {α : Type} {f : ForestPredictor α} (hf : validForest f = true)
    {j p pos : Nat} (hj : j < f.interiorNodes.length)
    (hmem : (p, pos) ∈ incomingEdges f j) :
    (incomingEdges f j).head? = some (p, pos) := by
  have hlen := valid_incoming_len hf hj
  match hl : incomingEdges f j with
  | [] => rw [hl] at hmem; exact absurd hmem (List.not_mem_nil _)
  | [a] =>
      rw [hl] at hmem
      simp only [List.mem_singleton] at hmem
      simp [hmem]
  | a :: b :: rest => rw [hl] at hlen; simp at hlen

/-- The source of an incoming edge of `j` precedes `j` (parents before children). -/
theorem incoming_src_lt {α : Type} {f : ForestPredictor α} (hf : validForest f = true)
    {j p pos : Nat}
    (hmem : (p, pos) ∈ incomingEdges f j) : p < j ∧ p < f.interiorNodes.length := by
  obtain ⟨hp, hpos, hint, htgt⟩ := mem_incomingEdges.mp hmem
  have hmem' : (nodeAt f p).outgoingEdges.getD pos default ∈ (nodeAt f p).outgoingEdges := by
    rw [List.getD_eq_getElem _ _ hpos]
    exact List.getElem_mem hpos
  have := valid_target hf hp hmem' hint
  omega

/-! ### Fuel adequacy for the spec-modelled recursions -/
theorem takenPos_lt {α : Type} {f : ForestPredictor α} (hf : validForest f = true)
    {i : Nat} (hi : i < f.interiorNodes.length) (x : α) :
    takenPos f x i < (nodeAt f i).outgoingEdges.length := by
  rw [valid_edges_len hf hi]
  unfold takenPos
  split <;> omega

theorem taken_edge_mem {α : Type} {f : ForestPredictor α} (hf : validForest f = true)
    {i : Nat} (hi : i < f.interiorNodes.length) (x : α) :
    (nodeAt f i).outgoingEdges.getD (takenPos f x i) default ∈ (nodeAt f i).outgoingEdges := by
  have h := takenPos_lt hf hi x
  rw [List.getD_eq_getElem _ _ h]
  exact List.getElem_mem h

theorem nodeValueAux_congr {α : Type} {f : ForestPredictor α} (hf : validForest f = true)
    (x : α) : ∀ fuel fuel' i, i < f.interiorNodes.length →
    f.interiorNodes.length ≤ i + fuel → f.interiorNodes.length ≤ i + fuel' →
    nodeValueAux f x fuel i = nodeValueAux f x fuel' i := by
  intro fuel
  induction fuel with
  | zero => intro fuel' i hi h h'; omega
  | succ fuel ih =>
      intro fuel' i hi h h'
      match fuel' with
      | 0 => omega
      | fuel'' + 1 =>
          show nodeValueAux f x (fuel + 1) i = nodeValueAux f x (fuel'' + 1) i
          unfold nodeValueAux
          simp only
          split
          case isTrue hint =>
            have := valid_target hf hi (taken_edge_mem hf hi x) hint
            rw [ih fuel'' _ this.2 (by omega) (by omega)]
          case isFalse => rfl

/-- The spec-level recursion for a subtree value, stated without fuel. -/
theorem treeValue_unfold {α : Type} {f : ForestPredictor α} (hf : validForest f = true)
    (x : α) {i : Nat} (hi : i < f.interiorNodes.length) :
    treeValue f x i =
      (let e := (nodeAt f i).outgoingEdges.getD (takenPos f x i) default
       e.predictor x + (if e.targetIsInterior then treeValue f x e.targetNodeIndex else 0)) := by
  have h1 : f.interiorNodes.length - i = (f.interiorNodes.length - i - 1) + 1 := by omega
  conv_lhs => unfold treeValue; rw [h1]; unfold nodeValueAux
  simp only
  congr 1
  split
  next hint =>
    have := valid_target hf hi (taken_edge_mem hf hi x) hint
    unfold treeValue
    exact nodeValueAux_congr hf x _ _ _ this.2 (by omega) (by omega)
  next => rfl

theorem pathEdgesAux_congr {α : Type} {f : ForestPredictor α} (hf : validForest f = true)
    (x : α) : ∀ fuel fuel' i, i < f.interiorNodes.length →
    f.interiorNodes.length ≤ i + fuel → f.interiorNodes.length ≤ i + fuel' →
    pathEdgesAux f x fuel i = pathEdgesAux f x fuel' i := by
  intro fuel
  induction fuel with
  | zero => intro fuel' i hi h h'; omega
  | succ fuel ih =>
      intro fuel' i hi h h'
      match fuel' with
      | 0 => omega
      | fuel'' + 1 =>
          show pathEdgesAux f x (fuel + 1) i = pathEdgesAux f x (fuel'' + 1) i
          unfold pathEdgesAux
          simp only
          congr 1
          split
          case isTrue hint =>
            have := valid_target hf hi (taken_edge_mem hf hi x) hint
            rw [ih fuel'' _ this.2 (by omega) (by omega)]
          case isFalse => rfl

theorem pathEdges_unfold {α : Type} {f : ForestPredictor α} (hf : validForest f = true)
    (x : α) {i : Nat} (hi : i < f.interiorNodes.length) :
    pathEdges f x i =
      ((nodeAt f i).firstEdgeIndex + takenPos f x i) ::
        (let e := (nodeAt f i).outgoingEdges.getD (takenPos f x i) default
         if e.targetIsInterior then pathEdges f x e.targetNodeIndex else []) := by
  have h1 : f.interiorNodes.length - i = (f.interiorNodes.length - i - 1) + 1 := by omega
  conv_lhs => unfold pathEdges; rw [h1]; unfold pathEdgesAux
  simp only
  congr 1
  split
  next hint =>
    have := valid_target hf hi (taken_edge_mem hf hi x) hint
    unfold pathEdges
    exact pathEdgesAux_congr hf x _ _ _ this.2 (by omega) (by omega)
  next => rfl

theorem activeAux_congr {α : Type} {f : ForestPredictor α} (hf : validForest f = true)
    (x : α) : ∀ fuel fuel' i, i < f.interiorNodes.length →
    i + 1 ≤ fuel → i + 1 ≤ fuel' →
    activeAux f x fuel i = activeAux f x fuel' i := by
  intro fuel
  induction fuel with
  | zero => intro fuel' i hi h h'; omega
  | succ fuel ih =>
      intro fuel' i hi h h'
      match fuel' with
      | 0 => omega
      | fuel'' + 1 =>
          show activeAux f x (fuel + 1) i = activeAux f x (fuel'' + 1) i
          unfold activeAux
          cases hhead : (incomingEdges f i).head? with
          | none => rfl
          | some ppos =>
              obtain ⟨p, pos⟩ := ppos
              show (activeAux f x fuel p && (takenPos f x p == pos)) =
                (activeAux f x fuel'' p && (takenPos f x p == pos))
              have hp := incoming_src_lt hf (List.mem_of_mem_head? hhead)
              rw [ih fuel'' p hp.2 (by omega) (by omega)]

theorem activeNode_root {α : Type} {f : ForestPredictor α}
    (x : α) {i : Nat} (hroot : incomingEdges f i = []) :
    activeNode f x i = true := by
  unfold activeNode activeAux
  rw [hroot]
  rfl

theorem activeNode_parent {α : Type} {f : ForestPredictor α} (hf : validForest f = true)
    (x : α) {i p pos : Nat}
    (hhead : (incomingEdges f i).head? = some (p, pos)) :
    activeNode f x i = (activeNode f x p && (takenPos f x p == pos)) := by
  unfold activeNode
  conv_lhs => unfold activeAux
  simp only [hhead]
  have hp := incoming_src_lt hf (List.mem_of_mem_head? hhead)
  rw [activeAux_congr hf x i (p + 1) p hp.2 (by omega) (by omega)]

theorem wfPE_mono {pe : PE} {len len' : Nat} (h : wfPE pe len) (hle : len ≤ len') :
    wfPE pe len' := fun r hr => lt_of_lt_of_le (h r hr) hle

theorem readRef_evalNodes_append {α : Type} (x : α) (ns ms : List (PrimNode α))
    (r : PortRef) (h : r.1 < ns.length) :
    readRef (evalNodes x (ns ++ ms)) r = readRef (evalNodes x ns) r := by
  obtain ⟨tail, htail⟩ := evalNodes_append x ns ms
  rw [htail]
  exact readRef_append _ _ _ (by rw [length_evalNodes]; exact h)

theorem AInvP_init {α : Type} (f : ForestPredictor α) : AInvP f 0 (initAState f) := by
  refine ⟨by simp [initAState], by simp [initAState], ?_, ?_, ?_⟩
  · intro j hj
    constructor <;>
      simp [initAState, List.getD_eq_getElem?_getD, List.getElem?_replicate,
        (by omega : j < f.interiorNodes.length)]
  · intro j h1 h2; omega
  · intro j h1 h2; omega

/-- What one `refineEdge` call adds: one new reference at the tail of
`edgeOutputs`, evaluating to the edge value — the edge predictor's output plus,
for an interior target, the target's subtree value. -/
theorem refineEdge_spec {α : Type} (f : ForestPredictor α) (subModels : List PE)
    (m : List (PrimNode α)) (eo : PE) (e : ForestEdge α)
    (hsub : e.targetIsInterior = true →
      wfPE (subModels.getD e.targetNodeIndex []) m.length ∧
      ∀ x, denote (evalNodes x m) (subModels.getD e.targetNodeIndex []) =
        [Val.q (treeValue f x e.targetNodeIndex)]) :
    ∃ ext id,
      (refineEdge subModels (m, eo) e).1 = m ++ ext ∧
      (refineEdge subModels (m, eo) e).2 = eo ++ [(id, 0)] ∧
      id < (refineEdge subModels (m, eo) e).1.length ∧
      ∀ x, readRef (evalNodes x (refineEdge subModels (m, eo) e).1) (id, 0) =
        Val.q (e.predictor x +
          (if e.targetIsInterior then treeValue f x e.targetNodeIndex else 0)) := by
  by_cases hint : e.targetIsInterior = true
  · obtain ⟨hwf, hden⟩ := hsub hint
    have heq : refineEdge subModels (m, eo) e =
        ((m ++ [PrimNode.edgePredictorNode e.predictor]) ++
           [PrimNode.binaryAddNode [(m.length, 0)] (subModels.getD e.targetNodeIndex [])],
         eo ++ [((m ++ [PrimNode.edgePredictorNode e.predictor]).length, 0)]) := by
      simp [refineEdge, hint]
    rw [heq]
    refine ⟨[PrimNode.edgePredictorNode e.predictor,
        PrimNode.binaryAddNode [(m.length, 0)] (subModels.getD e.targetNodeIndex [])],
      (m ++ [PrimNode.edgePredictorNode e.predictor]).length,
      by simp, rfl, by simp, ?_⟩
    intro x
    rw [readRef_last]
    show (evalPrim x (evalNodes x (m ++ [PrimNode.edgePredictorNode e.predictor]))
      (PrimNode.binaryAddNode [(m.length, 0)] (subModels.getD e.targetNodeIndex []))).getD 0
        (Val.q 0) = _
    simp only [evalPrim]
    have h1 : denote (evalNodes x (m ++ [PrimNode.edgePredictorNode e.predictor]))
        [(m.length, 0)] = [Val.q (e.predictor x)] := by
      unfold denote
      simp only [List.map_cons, List.map_nil]
      rw [readRef_last]
      rfl
    have h2 : denote (evalNodes x (m ++ [PrimNode.edgePredictorNode e.predictor]))
        (subModels.getD e.targetNodeIndex []) =
        [Val.q (treeValue f x e.targetNodeIndex)] := by
      rw [denote_evalNodes_append x m _ _ hwf]
      exact hden x
    rw [h1, h2]
    simp [hint, Val.toQ]
  · have hint' : e.targetIsInterior = false := by simpa using hint
    have heq : refineEdge subModels (m, eo) e =
        (m ++ [PrimNode.edgePredictorNode e.predictor], eo ++ [(m.length, 0)]) := by
      simp [refineEdge, hint']
    rw [heq]
    refine ⟨[PrimNode.edgePredictorNode e.predictor], m.length, rfl, rfl, by simp, ?_⟩
    intro x
    rw [readRef_last]
    simp [evalPrim, hint', Val.toQ]

theorem getD_set_self {β : Type} (l : List β) (n : Nat) (v d : β) (h : n < l.length) :
    (l.set n v).getD n d = v := by
  simp [List.getD_eq_getElem?_getD, List.getElem?_set_self, h]

theorem getD_set_ne {β : Type} (l : List β) (n m : Nat) (v d : β) (h : n ≠ m) :
    (l.set n v).getD m d = l.getD m d := by
  simp [List.getD_eq_getElem?_getD, List.getElem?_set_ne h]

theorem AInvP_step {α : Type} {f : ForestPredictor α} (hf : validForest f = true)
    {n : Nat} {st : AState α} (hn : n < f.interiorNodes.length)
    (inv : AInvP f n st) :
    AInvP f (n + 1) (stepA f st (f.interiorNodes.length - 1 - n)) := by
  have hi : f.interiorNodes.length - 1 - n < f.interiorNodes.length := by omega
  obtain ⟨e0, e1, hedges⟩ := List.length_eq_two.mp (valid_edges_len hf hi)
  -- facts feeding refineEdge for an interior-target edge of the visited node
  have hsubT : ∀ (M : List (PrimNode α)) ext, M = st.model ++ ext →
      ∀ e ∈ (nodeAt f (f.interiorNodes.length - 1 - n)).outgoingEdges,
      e.targetIsInterior = true →
      wfPE (st.subModels.getD e.targetNodeIndex []) M.length ∧
      ∀ x, denote (evalNodes x M) (st.subModels.getD e.targetNodeIndex []) =
        [Val.q (treeValue f x e.targetNodeIndex)] := by
    rintro M ext rfl e he hint
    obtain ⟨hgt, hlt⟩ := valid_target hf hi he hint
    obtain ⟨id, hgetd, hid, hread⟩ := inv.subFact e.targetNodeIndex (by omega) hlt
    constructor
    · intro r hr
      rw [hgetd] at hr
      simp only [List.mem_singleton] at hr
      subst hr
      simp only [List.length_append]
      omega
    · intro x
      rw [hgetd]
      unfold denote
      simp only [List.map_cons, List.map_nil]
      rw [readRef_evalNodes_append x st.model ext _ hid, hread x]
  -- first edge
  obtain ⟨ext0, id0, hm0, heo0, hid0, hval0⟩ :=
    refineEdge_spec f st.subModels st.model [] e0
      (fun hint => hsubT st.model [] (by simp) e0 (by rw [hedges]; simp) hint)
  have hP0 : refineEdge st.subModels (st.model, []) e0 = (st.model ++ ext0, [(id0, 0)]) := by
    have := Prod.mk.eta (p := refineEdge st.subModels (st.model, ([] : PE)) e0)
    rw [← this, hm0]
    rw [heo0]
    rfl
  rw [hm0] at hid0 hval0
  -- second edge
  obtain ⟨ext1, id1, hm1, heo1, hid1, hval1⟩ :=
    refineEdge_spec f st.subModels (st.model ++ ext0) [(id0, 0)] e1
      (fun hint => hsubT (st.model ++ ext0) ext0 rfl e1 (by rw [hedges]; simp) hint)
  have hP1 : refineEdge st.subModels (st.model ++ ext0, [(id0, 0)]) e1 =
      (st.model ++ ext0 ++ ext1, [(id0, 0), (id1, 0)]) := by
    have := Prod.mk.eta (p := refineEdge st.subModels (st.model ++ ext0, [(id0, 0)]) e1)
    rw [← this, hm1]
    rw [heo1]
    rfl
  rw [hm1] at hid1 hval1
  have hid0' : id0 < st.model.length + ext0.length := by simpa using hid0
  have hid1' : id1 < st.model.length + ext0.length + ext1.length := by
    have := hid1
    simp only [List.length_append] at this
    omega
  -- the fold over the two outgoing edges
  have hfold : (nodeAt f (f.interiorNodes.length - 1 - n)).outgoingEdges.foldl
      (refineEdge st.subModels) (st.model, []) =
      (st.model ++ ext0 ++ ext1, [(id0, 0), (id1, 0)]) := by
    rw [hedges]
    simp only [List.foldl_cons, List.foldl_nil, hP0, hP1]
  have hstep : stepA f st (f.interiorNodes.length - 1 - n) =
      { model := ((st.model ++ ext0 ++ ext1) ++
          [PrimNode.splitRuleNode (nodeAt f (f.interiorNodes.length - 1 - n)).splitRule]) ++
          [PrimNode.elementSelectorNode [(id0, 0), (id1, 0)]
            [((st.model ++ ext0 ++ ext1).length, 0)]],
        splitInds := st.splitInds.set (f.interiorNodes.length - 1 - n)
          [((st.model ++ ext0 ++ ext1).length, 0)],
        subModels := st.subModels.set (f.interiorNodes.length - 1 - n)
          [((st.model ++ ext0 ++ ext1).length + 1, 0)] } := by
    simp only [stepA, hfold]
    simp [Nat.add_assoc]
  rw [hstep]
  -- value of the split-rule node in the final step model
  have hsplitVal : ∀ x, readRef (evalNodes x (((st.model ++ ext0 ++ ext1) ++
      [PrimNode.splitRuleNode (nodeAt f (f.interiorNodes.length - 1 - n)).splitRule]) ++
      [PrimNode.elementSelectorNode [(id0, 0), (id1, 0)]
        [((st.model ++ ext0 ++ ext1).length, 0)]]))
      ((st.model ++ ext0 ++ ext1).length, 0) =
      Val.b ((nodeAt f (f.interiorNodes.length - 1 - n)).splitRule x) := by
    intro x
    rw [readRef_evalNodes_append x _ _ _ (by simp)]
    rw [readRef_last]
    rfl
  -- value of the selector node: the subtree value at the visited interior node
  have hselVal : ∀ x, readRef (evalNodes x (((st.model ++ ext0 ++ ext1) ++
      [PrimNode.splitRuleNode (nodeAt f (f.interiorNodes.length - 1 - n)).splitRule]) ++
      [PrimNode.elementSelectorNode [(id0, 0), (id1, 0)]
        [((st.model ++ ext0 ++ ext1).length, 0)]]))
      ((st.model ++ ext0 ++ ext1).length + 1, 0) =
      Val.q (treeValue f x (f.interiorNodes.length - 1 - n)) := by
    intro x
    have hlen2 : (st.model ++ ext0 ++ ext1).length + 1 =
        ((st.model ++ ext0 ++ ext1) ++
          [PrimNode.splitRuleNode (nodeAt f (f.interiorNodes.length - 1 - n)).splitRule]).length := by
      simp [Nat.add_assoc]
    rw [hlen2, readRef_last]
    have hsel : denote (evalNodes x ((st.model ++ ext0 ++ ext1) ++
        [PrimNode.splitRuleNode (nodeAt f (f.interiorNodes.length - 1 - n)).splitRule]))
        [((st.model ++ ext0 ++ ext1).length, 0)] =
        [Val.b ((nodeAt f (f.interiorNodes.length - 1 - n)).splitRule x)] := by
      unfold denote
      simp only [List.map_cons, List.map_nil]
      rw [readRef_last]
      rfl
    have h0 : readRef (evalNodes x ((st.model ++ ext0 ++ ext1) ++
        [PrimNode.splitRuleNode (nodeAt f (f.interiorNodes.length - 1 - n)).splitRule]))
        (id0, 0) = Val.q (e0.predictor x +
          (if e0.targetIsInterior then treeValue f x e0.targetNodeIndex else 0)) := by
      rw [readRef_evalNodes_append x _ _ _ (by simp; omega)]
      rw [show st.model ++ ext0 ++ ext1 = (st.model ++ ext0) ++ ext1 by simp]
      rw [readRef_evalNodes_append x _ _ _ (by simpa using hid0)]
      exact hval0 x
    have h1 : readRef (evalNodes x ((st.model ++ ext0 ++ ext1) ++
        [PrimNode.splitRuleNode (nodeAt f (f.interiorNodes.length - 1 - n)).splitRule]))
        (id1, 0) = Val.q (e1.predictor x +
          (if e1.targetIsInterior then treeValue f x e1.targetNodeIndex else 0)) := by
      rw [readRef_evalNodes_append x _ _ _ (by simpa using hid1)]
      exact hval1 x
    have helts : denote (evalNodes x ((st.model ++ ext0 ++ ext1) ++
        [PrimNode.splitRuleNode (nodeAt f (f.interiorNodes.length - 1 - n)).splitRule]))
        [(id0, 0), (id1, 0)] =
        [Val.q (e0.predictor x + (if e0.targetIsInterior then treeValue f x e0.targetNodeIndex else 0)),
         Val.q (e1.predictor x + (if e1.targetIsInterior then treeValue f x e1.targetNodeIndex else 0))] := by
      unfold denote
      simp only [List.map_cons, List.map_nil]
      rw [h0, h1]
    simp only [evalPrim, hsel, helts]
    rw [treeValue_unfold hf x hi]
    simp only [List.headD_cons, Val.toB]
    by_cases hs : (nodeAt f (f.interiorNodes.length - 1 - n)).splitRule x
    · simp only [hs, if_true, takenPos, hedges]
      simp [Val.toQ]
    · simp only [hs, if_false, takenPos, hedges]
      simp [Val.toQ, hs]
  -- the final step model extends the starting model
  have hM3 : ((st.model ++ ext0 ++ ext1) ++
      [PrimNode.splitRuleNode (nodeAt f (f.interiorNodes.length - 1 - n)).splitRule]) ++
      [PrimNode.elementSelectorNode [(id0, 0), (id1, 0)]
        [((st.model ++ ext0 ++ ext1).length, 0)]] =
      st.model ++ (ext0 ++ ext1 ++
        [PrimNode.splitRuleNode (nodeAt f (f.interiorNodes.length - 1 - n)).splitRule] ++
        [PrimNode.elementSelectorNode [(id0, 0), (id1, 0)]
          [((st.model ++ ext0 ++ ext1).length, 0)]]) := by
    simp
  refine ⟨?_, ?_, ?_, ?_, ?_⟩
  · simpa using inv.lenS
  · simpa using inv.lenM
  · intro j hj
    have hne : f.interiorNodes.length - 1 - n ≠ j := by omega
    constructor
    · rw [getD_set_ne _ _ _ _ _ hne]
      exact (inv.fresh j (by omega)).1
    · rw [getD_set_ne _ _ _ _ _ hne]
      exact (inv.fresh j (by omega)).2
  · intro j hj1 hj2
    by_cases hji : j = f.interiorNodes.length - 1 - n
    · subst hji
      refine ⟨(st.model ++ ext0 ++ ext1).length, ?_, by simp, hsplitVal⟩
      rw [getD_set_self]
      rw [inv.lenS]
      exact hi
    · obtain ⟨id, hgetd, hid, hread⟩ := inv.splitFact j (by omega) hj2
      refine ⟨id, ?_, ?_, ?_⟩
      · rw [getD_set_ne _ _ _ _ _ (fun h => hji h.symm), hgetd]
      · simp only [List.length_append]
        omega
      · intro x
        rw [hM3, readRef_evalNodes_append x _ _ _ (by simpa using hid)]
        exact hread x
  · intro j hj1 hj2
    by_cases hji : j = f.interiorNodes.length - 1 - n
    · subst hji
      refine ⟨(st.model ++ ext0 ++ ext1).length + 1, ?_, by simp; omega, hselVal⟩
      rw [getD_set_self]
      rw [inv.lenM]
      exact hi
    · obtain ⟨id, hgetd, hid, hread⟩ := inv.subFact j (by omega) hj2
      refine ⟨id, ?_, ?_, ?_⟩
      · rw [getD_set_ne _ _ _ _ _ (fun h => hji h.symm), hgetd]
      · simp only [List.length_append]
        omega
      · intro x
        rw [hM3, readRef_evalNodes_append x _ _ _ (by simpa using hid)]
        exact hread x

/-- The invariant holds of the completed phase A. -/
theorem AInvP_phaseA {α : Type} {f : ForestPredictor α} (hf : validForest f = true) :
    ∀ n, n ≤ f.interiorNodes.length → AInvP f n (phaseA f n) := by
  intro n
  induction n with
  | zero => intro _; exact AInvP_init f
  | succ n ih =>
      intro h
      exact AInvP_step hf (by omega) (ih (by omega))

/-! ### Phase B loop invariant -/
theorem headD_toB_of_denoteB {outs : List (List Val)} {pe : PE} {v : Bool}
    (h : denoteB outs pe = [v]) :
    ((denote outs pe).headD (Val.q 0)).toB = v := by
  unfold denoteB at h
  cases hd : denote outs pe with
  | nil => rw [hd] at h; exact absurd h (by simp)
  | cons u rest =>
      rw [hd] at h
      simp only [List.map_cons, List.cons.injEq] at h
      simp [h.1]

theorem denoteB_evalNodes_append {α : Type} (x : α) (ns ms : List (PrimNode α)) (pe : PE)
    (h : ∀ r ∈ pe, r.1 < ns.length) :
    denoteB (evalNodes x (ns ++ ms)) pe = denoteB (evalNodes x ns) pe := by
  unfold denoteB
  rw [denote_evalNodes_append x ns ms pe h]

theorem BInvP_init {α : Type} (f : ForestPredictor α) (sa : AState α) :
    BInvP f sa 0 (initBState f sa) := by
  refine ⟨⟨[], by simp [initBState]⟩, by simp [initBState], by simp [initBState],
    ?_, ?_, ?_, ?_⟩
  · intro j hj
    have : (List.replicate f.interiorNodes.length (none : Option Nat)).getD j none = none := by
      simp only [List.getD_eq_getElem?_getD, List.getElem?_replicate]
      split <;> rfl
    rw [show (initBState f sa).incoming = List.replicate f.interiorNodes.length none from rfl,
      this]
    cases (incomingEdges f j).head? with
    | none => rfl
    | some ppos => obtain ⟨p, pos⟩ := ppos; simp
  · intro j h0 hj
    unfold numEdges at *
    constructor <;>
      · show (List.replicate (2 * f.interiorNodes.length) ([] : PE)).getD _ [] = []
        simp only [List.getD_eq_getElem?_getD, List.getElem?_replicate]
        split <;> rfl
  · intro j hj; omega
  · intro j hj; omega

theorem mem_eq_of_length_le_one {β : Type} {l : List β} (hlen : l.length ≤ 1)
    {a b : β} (ha : a ∈ l) (hb : b ∈ l) : a = b := by
  match l with
  | [] => exact absurd ha (List.not_mem_nil a)
  | [c] =>
      simp only [List.mem_singleton] at ha hb
      rw [ha, hb]
  | c :: d :: rest => simp at hlen

theorem takenPos_beq_zero {α : Type} (f : ForestPredictor α) (x : α) (p : Nat) :
    (takenPos f x p == 0) = !((nodeAt f p).splitRule x) := by
  unfold takenPos
  by_cases hs : (nodeAt f p).splitRule x <;> simp [hs]

theorem takenPos_beq_one {α : Type} (f : ForestPredictor α) (x : α) (p : Nat) :
    (takenPos f x p == 1) = (nodeAt f p).splitRule x := by
  unfold takenPos
  by_cases hs : (nodeAt f p).splitRule x <;> simp [hs]

/-- The `incomingEdgeIndices` update of one phase B iteration: the later of the
two recordings wins, everything else is untouched. -/
theorem stepB_incoming_getD {α : Type} {f : ForestPredictor α} (hf : validForest f = true)
    {n : Nat} (hn : n < f.interiorNodes.length) {c0 c1 : ForestEdge α}
    (hedges : (nodeAt f n).outgoingEdges = [c0, c1])
    (splitInds : List PE) (st : BState α) (hlen : st.incoming.length = f.interiorNodes.length)
    (j : Nat) (hj : j < f.interiorNodes.length) :
    (stepB f splitInds st n).incoming.getD j none =
      (if c1.targetIsInterior = true ∧ c1.targetNodeIndex = j then some (2 * n + 1)
       else if c0.targetIsInterior = true ∧ c0.targetNodeIndex = j then some (2 * n)
       else st.incoming.getD j none) := by
  have hrange : List.range (nodeAt f n).outgoingEdges.length = [0, 1] := by
    rw [hedges]
    rfl
  have hg0 : (nodeAt f n).outgoingEdges.getD 0 default = c0 := by rw [hedges]; rfl
  have hg1 : (nodeAt f n).outgoingEdges.getD 1 default = c1 := by rw [hedges]; rfl
  have hfei : (nodeAt f n).firstEdgeIndex = 2 * n := valid_fei hf hn
  show ((List.range (nodeAt f n).outgoingEdges.length).foldl
      (fun inc pos =>
        let e := (nodeAt f n).outgoingEdges.getD pos default
        if e.targetIsInterior then
          inc.set e.targetNodeIndex (some ((nodeAt f n).firstEdgeIndex + pos)) else inc)
      st.incoming).getD j none = _
  rw [hrange]
  simp only [List.foldl_cons, List.foldl_nil, hg0, hg1, hfei]
  by_cases h1 : c1.targetIsInterior = true ∧ c1.targetNodeIndex = j
  · rw [if_pos h1]
    have hstep1 : (if c1.targetIsInterior = true then
        (if c0.targetIsInterior = true then
          st.incoming.set c0.targetNodeIndex (some (2 * n + 0)) else st.incoming).set
          c1.targetNodeIndex (some (2 * n + 1))
        else (if c0.targetIsInterior = true then
          st.incoming.set c0.targetNodeIndex (some (2 * n + 0)) else st.incoming)) =
        (if c0.targetIsInterior = true then
          st.incoming.set c0.targetNodeIndex (some (2 * n + 0)) else st.incoming).set
          j (some (2 * n + 1)) := by
      rw [if_pos h1.1, h1.2]
    rw [hstep1, getD_set_self]
    split
    · simp [hlen, hj]
    · simp [hlen, hj]
  · rw [if_neg h1]
    have hstep1 : (if c1.targetIsInterior = true then
        (if c0.targetIsInterior = true then
          st.incoming.set c0.targetNodeIndex (some (2 * n + 0)) else st.incoming).set
          c1.targetNodeIndex (some (2 * n + 1))
        else (if c0.targetIsInterior = true then
          st.incoming.set c0.targetNodeIndex (some (2 * n + 0)) else st.incoming)).getD j none =
        (if c0.targetIsInterior = true then
          st.incoming.set c0.targetNodeIndex (some (2 * n + 0)) else st.incoming).getD j none := by
      by_cases hb : c1.targetIsInterior = true
      · rw [if_pos hb, getD_set_ne]
        intro hc
        exact h1 ⟨hb, hc⟩
      · rw [if_neg hb]
    rw [hstep1]
    by_cases h0 : c0.targetIsInterior = true ∧ c0.targetNodeIndex = j
    · rw [if_pos h0]
      have : (if c0.targetIsInterior = true then
          st.incoming.set c0.targetNodeIndex (some (2 * n + 0)) else st.incoming) =
          st.incoming.set j (some (2 * n + 0)) := by
        rw [if_pos h0.1, h0.2]
      rw [this, getD_set_self _ _ _ _ (by rw [hlen]; exact hj)]
      rfl
    · rw [if_neg h0]
      by_cases hb : c0.targetIsInterior = true
      · rw [if_pos hb, getD_set_ne]
        intro hc
        exact h0 ⟨hb, hc⟩
      · rw [if_neg hb]

theorem stepB_incoming_length {α : Type} (f : ForestPredictor α) (splitInds : List PE)
    (st : BState α) (k : Nat) :
    (stepB f splitInds st k).incoming.length = st.incoming.length := by
  show ((List.range (nodeAt f k).outgoingEdges.length).foldl _ st.incoming).length = _
  generalize (List.range (nodeAt f k).outgoingEdges.length) = l
  generalize st.incoming = inc
  induction l generalizing inc with
  | nil => rfl
  | cons p rest ih =>
      simp only [List.foldl_cons]
      rw [ih]
      split <;> simp

theorem stepB_root_projections {α : Type} (f : ForestPredictor α) (splitInds : List PE)
    (st : BState α) (k : Nat) (hinc : st.incoming.getD k none = none) :
    (stepB f splitInds st k).model = st.model ++ [.notNode (splitInds.getD k [])] ∧
    (stepB f splitInds st k).edgeInd =
      (st.edgeInd.set (nodeAt f k).firstEdgeIndex [(st.model.length, 0)]).set
        ((nodeAt f k).firstEdgeIndex + 1) (splitInds.getD k []) := by
  constructor <;> (simp only [stepB, hinc])

theorem stepB_mux_projections {α : Type} (f : ForestPredictor α) (splitInds : List PE)
    (st : BState α) (k pe : Nat) (hinc : st.incoming.getD k none = some pe) :
    (stepB f splitInds st k).model =
      st.model ++ [.multiplexorNode (st.edgeInd.getD pe []) (splitInds.getD k [])] ∧
    (stepB f splitInds st k).edgeInd =
      (st.edgeInd.set (nodeAt f k).firstEdgeIndex [(st.model.length, 0)]).set
        ((nodeAt f k).firstEdgeIndex + 1) [(st.model.length, 1)] := by
  constructor <;> (simp only [stepB, hinc])

theorem BInvP_step {α : Type} {f : ForestPredictor α} (hf : validForest f = true)
    {sa : AState α} (invA : AInvP f f.interiorNodes.length sa)
    {n : Nat} (hn : n < f.interiorNodes.length) {st : BState α}
    (inv : BInvP f sa n st) :
    BInvP f sa (n + 1) (stepB f sa.splitInds st n) := by
  obtain ⟨tail, htail⟩ := inv.ext
  obtain ⟨c0, c1, hedges⟩ := List.length_eq_two.mp (valid_edges_len hf hn)
  have hfei := valid_fei hf hn
  obtain ⟨sid, hsgetd, hsid, hsread⟩ := invA.splitFact n (by omega) hn
  have hsid' : sid < st.model.length := by
    rw [htail]
    simp only [List.length_append]
    omega
  have hselread : ∀ x, readRef (evalNodes x st.model) (sid, 0) =
      Val.b ((nodeAt f n).splitRule x) := by
    intro x
    rw [htail, readRef_evalNodes_append x _ _ _ hsid]
    exact hsread x
  have hseldenB : ∀ x, denoteB (evalNodes x st.model) (sa.splitInds.getD n []) =
      [(nodeAt f n).splitRule x] := by
    intro x
    rw [hsgetd]
    unfold denoteB denote
    simp only [List.map_cons, List.map_nil]
    rw [hselread x]
    rfl
  obtain ⟨nn, ch1, ch2, hm, he, hwf1, hwf2, hval1, hval2, hstructn⟩ :
      ∃ nn ch1 ch2,
        (stepB f sa.splitInds st n).model = st.model ++ [nn] ∧
        (stepB f sa.splitInds st n).edgeInd =
          (st.edgeInd.set (2 * n) ch1).set (2 * n + 1) ch2 ∧
        wfPE ch1 (st.model.length + 1) ∧ wfPE ch2 (st.model.length + 1) ∧
        (∀ x, denoteB (evalNodes x (st.model ++ [nn])) ch1 =
          [activeNode f x n && !((nodeAt f n).splitRule x)]) ∧
        (∀ x, denoteB (evalNodes x (st.model ++ [nn])) ch2 =
          [activeNode f x n && (nodeAt f n).splitRule x]) ∧
        ((incomingEdges f n = [] →
          ∃ m, m < st.model.length + 1 ∧ ch1 = [(m, 0)] ∧
            (st.model ++ [nn])[m]? = some (.notNode (sa.splitInds.getD n [])) ∧
            ch2 = sa.splitInds.getD n []) ∧
         (∀ p pos, (incomingEdges f n).head? = some (p, pos) →
          ∃ m, m < st.model.length + 1 ∧ ch1 = [(m, 0)] ∧ ch2 = [(m, 1)] ∧
            (st.model ++ [nn])[m]? = some (.multiplexorNode
              (st.edgeInd.getD (2 * p + pos) []) (sa.splitInds.getD n [])))) := by
    cases hhead : (incomingEdges f n).head? with
    | none =>
        have hroot : incomingEdges f n = [] := List.head?_eq_none_iff.mp hhead
        have hactive : ∀ x, activeNode f x n = true := fun x => activeNode_root x hroot
        have hinc : st.incoming.getD n none = none := by
          rw [inv.incomingFact n hn, hhead]
        obtain ⟨hm, he⟩ := stepB_root_projections f sa.splitInds st n hinc
        refine ⟨.notNode (sa.splitInds.getD n []), [(st.model.length, 0)],
          sa.splitInds.getD n [], hm, by rw [he, hfei], ?_, ?_, ?_, ?_, ?_, ?_⟩
        · intro r hr
          simp only [List.mem_singleton] at hr
          subst hr
          simp
        · intro r hr
          rw [hsgetd] at hr
          simp only [List.mem_singleton] at hr
          subst hr
          omega
        · intro x
          unfold denoteB denote
          simp only [List.map_cons, List.map_nil]
          rw [readRef_last]
          have hev : evalPrim x (evalNodes x st.model) (.notNode (sa.splitInds.getD n [])) =
              [Val.b (!(nodeAt f n).splitRule x)] := by
            simp only [evalPrim]
            rw [hsgetd]
            unfold denote
            simp only [List.map_cons, List.map_nil]
            rw [hselread x]
            rfl
          rw [hev]
          simp [hactive x, Val.toB]
        · intro x
          rw [denoteB_evalNodes_append x st.model _ _ (by
            rw [hsgetd]
            intro r hr
            simp only [List.mem_singleton] at hr
            subst hr
            exact hsid')]
          rw [hseldenB x]
          simp [hactive x]
        · exact fun _ => ⟨st.model.length, by omega, rfl,
            by rw [List.getElem?_concat_length], rfl⟩
        · intro p pos h
          exact absurd h (by simp)
    | some ppos =>
        obtain ⟨p, pos⟩ := ppos
        have hpmem := List.mem_of_mem_head? hhead
        obtain ⟨hpK, hposlen, hintp, htgtp⟩ := mem_incomingEdges.mp hpmem
        have hplt : p < n := (incoming_src_lt hf hpmem).1
        have hpos2 : pos < 2 := by rw [valid_edges_len hf hpK] at hposlen; exact hposlen
        have hinc : st.incoming.getD n none = some (2 * p + pos) := by
          rw [inv.incomingFact n hn, hhead]
          simp [hplt]
        obtain ⟨hvw1, hvw2, hv1, hv2⟩ := inv.visited p hplt hpK
        have hPden : ∀ x, denoteB (evalNodes x st.model)
            (st.edgeInd.getD (2 * p + pos) []) = [activeNode f x n] := by
          intro x
          rcases (by omega : pos = 0 ∨ pos = 1) with rfl | rfl
          · rw [show 2 * p + 0 = 2 * p from rfl, hv1 x,
              activeNode_parent hf x hhead, takenPos_beq_zero]
          · rw [hv2 x, activeNode_parent hf x hhead, takenPos_beq_one]
        have hwfP : wfPE (st.edgeInd.getD (2 * p + pos) []) st.model.length := by
          rcases (by omega : pos = 0 ∨ pos = 1) with rfl | rfl
          · exact hvw1
          · exact hvw2
        obtain ⟨hm, he⟩ := stepB_mux_projections f sa.splitInds st n (2 * p + pos) hinc
        refine ⟨.multiplexorNode (st.edgeInd.getD (2 * p + pos) []) (sa.splitInds.getD n []),
          [(st.model.length, 0)], [(st.model.length, 1)], hm, by rw [he, hfei],
          ?_, ?_, ?_, ?_, ?_, ?_⟩
        · intro r hr
          simp only [List.mem_singleton] at hr
          subst hr
          simp
        · intro r hr
          simp only [List.mem_singleton] at hr
          subst hr
          simp
        · intro x
          unfold denoteB denote
          simp only [List.map_cons, List.map_nil]
          rw [readRef_last]
          simp only [evalPrim]
          rw [headD_toB_of_denoteB (hPden x), headD_toB_of_denoteB (hseldenB x)]
          rfl
        · intro x
          unfold denoteB denote
          simp only [List.map_cons, List.map_nil]
          rw [readRef_last]
          simp only [evalPrim]
          rw [headD_toB_of_denoteB (hPden x), headD_toB_of_denoteB (hseldenB x)]
          rfl
        · intro h
          rw [h] at hhead
          exact absurd hhead (by simp)
        · intro p' pos' h
          have hpair : p = p' ∧ pos = pos' := by
            have := Option.some.inj h
            exact ⟨congrArg Prod.fst this, congrArg Prod.snd this⟩
          obtain ⟨rfl, rfl⟩ := hpair
          exact ⟨st.model.length, by omega, rfl, rfl,
            by rw [List.getElem?_concat_length]⟩
  -- entry shapes of the updated edge indicator vector
  have hKE : st.edgeInd.length = 2 * f.interiorNodes.length := inv.lenE
  have hentry1 : (stepB f sa.splitInds st n).edgeInd.getD (2 * n) [] = ch1 := by
    rw [he, getD_set_ne _ _ _ _ _ (by omega), getD_set_self _ _ _ _ (by omega)]
  have hentry2 : (stepB f sa.splitInds st n).edgeInd.getD (2 * n + 1) [] = ch2 := by
    rw [he, getD_set_self _ _ _ _ (by rw [List.length_set]; omega)]
  have hentryOld : ∀ e, e < 2 * n →
      (stepB f sa.splitInds st n).edgeInd.getD e [] = st.edgeInd.getD e [] := by
    intro e hlt
    rw [he, getD_set_ne _ _ _ _ _ (by omega), getD_set_ne _ _ _ _ _ (by omega)]
  have hentryNew : ∀ e, 2 * n + 1 < e →
      (stepB f sa.splitInds st n).edgeInd.getD e [] = st.edgeInd.getD e [] := by
    intro e hlt
    rw [he, getD_set_ne _ _ _ _ _ (by omega), getD_set_ne _ _ _ _ _ (by omega)]
  refine ⟨⟨tail ++ [nn], by rw [hm, htail, List.append_assoc]⟩, ?_, ?_, ?_, ?_, ?_, ?_⟩
  · rw [he]
    simp [inv.lenE]
  · rw [stepB_incoming_length]
    exact inv.lenI
  · -- incoming recording
    intro j hj
    rw [stepB_incoming_getD hf hn hedges sa.splitInds st inv.lenI j hj]
    have hc0mem : (c0.targetIsInterior = true ∧ c0.targetNodeIndex = j) ↔
        (n, 0) ∈ incomingEdges f j := by
      rw [mem_incomingEdges]
      constructor
      · rintro ⟨h1, h2⟩
        refine ⟨hn, by rw [valid_edges_len hf hn]; omega, ?_, ?_⟩ <;>
          (rw [hedges]; exact (by assumption))
      · rintro ⟨_, _, h3, h4⟩
        rw [hedges] at h3 h4
        exact ⟨h3, h4⟩
    have hc1mem : (c1.targetIsInterior = true ∧ c1.targetNodeIndex = j) ↔
        (n, 1) ∈ incomingEdges f j := by
      rw [mem_incomingEdges]
      constructor
      · rintro ⟨h1, h2⟩
        refine ⟨hn, by rw [valid_edges_len hf hn]; omega, ?_, ?_⟩ <;>
          (rw [hedges]; exact (by assumption))
      · rintro ⟨_, _, h3, h4⟩
        rw [hedges] at h3 h4
        exact ⟨h3, h4⟩
    have hulen := valid_incoming_len hf hj
    cases hh : (incomingEdges f j).head? with
    | none =>
        have hempty : incomingEdges f j = [] := List.head?_eq_none_iff.mp hh
        rw [if_neg (fun hc => by
            have := hc1mem.mp hc
            rw [hempty] at this
            exact absurd this (List.not_mem_nil _)),
          if_neg (fun hc => by
            have := hc0mem.mp hc
            rw [hempty] at this
            exact absurd this (List.not_mem_nil _)),
          inv.incomingFact j hj, hh]
    | some qq =>
        obtain ⟨q, qpos⟩ := qq
        have hqmem := List.mem_of_mem_head? hh
        by_cases hqn : q = n
        · subst hqn
          have hqpos2 : qpos < 2 := by
            obtain ⟨_, hql, _, _⟩ := mem_incomingEdges.mp hqmem
            rw [valid_edges_len hf hn] at hql
            exact hql
          rcases (by omega : qpos = 0 ∨ qpos = 1) with rfl | rfl
          · have hnot1 : ¬(c1.targetIsInterior = true ∧ c1.targetNodeIndex = j) := by
              intro hc
              have h1 := hc1mem.mp hc
              have := mem_eq_of_length_le_one hulen h1 hqmem
              simp at this
            rw [if_neg hnot1, if_pos (hc0mem.mpr hqmem)]
            simp
          · rw [if_pos (hc1mem.mpr hqmem)]
            simp
        · have hnot1 : ¬(c1.targetIsInterior = true ∧ c1.targetNodeIndex = j) := by
            intro hc
            have h1 := hc1mem.mp hc
            have := mem_eq_of_length_le_one hulen h1 hqmem
            exact hqn (congrArg Prod.fst this).symm
          have hnot0 : ¬(c0.targetIsInterior = true ∧ c0.targetNodeIndex = j) := by
            intro hc
            have h1 := hc0mem.mp hc
            have := mem_eq_of_length_le_one hulen h1 hqmem
            exact hqn (congrArg Prod.fst this).symm
          rw [if_neg hnot1, if_neg hnot0, inv.incomingFact j hj, hh]
          by_cases hq : q < n
          · simp [hq, Nat.lt_succ_of_lt hq]
          · simp only [if_neg hq]
            rw [if_neg (by omega : ¬q < n + 1)]
  · -- unvisited nodes keep empty entries
    intro j hj1 hj2
    constructor
    · rw [hentryNew (2 * j) (by omega)]
      exact (inv.unvisited j (by omega) hj2).1
    · rw [hentryNew (2 * j + 1) (by omega)]
      exact (inv.unvisited j (by omega) hj2).2
  · -- visited nodes
    intro j hj1 hj2
    by_cases hjn : j = n
    · subst hjn
      rw [hentry1, hentry2, hm]
      refine ⟨?_, ?_, hval1, hval2⟩
      · intro r hr
        have := hwf1 r hr
        simp only [List.length_append, List.length_singleton]
        omega
      · intro r hr
        have := hwf2 r hr
        simp only [List.length_append, List.length_singleton]
        omega
    · obtain ⟨w1, w2, vv1, vv2⟩ := inv.visited j (by omega) hj2
      rw [hentryOld (2 * j) (by omega), hentryOld (2 * j + 1) (by omega), hm]
      refine ⟨?_, ?_, ?_, ?_⟩
      · intro r hr
        have := w1 r hr
        simp only [List.length_append, List.length_singleton]
        omega
      · intro r hr
        have := w2 r hr
        simp only [List.length_append, List.length_singleton]
        omega
      · intro x
        rw [denoteB_evalNodes_append x st.model _ _ w1]
        exact vv1 x
      · intro x
        rw [denoteB_evalNodes_append x st.model _ _ w2]
        exact vv2 x
  · -- wiring structure
    intro j hj1 hj2
    by_cases hjn : j = n
    · subst hjn
      constructor
      · intro hroot
        obtain ⟨m, hmlt, hc1, hlook, hc2⟩ := hstructn.1 hroot
        refine ⟨m, ?_, ?_, ?_, ?_⟩
        · rw [hm]
          simp only [List.length_append, List.length_singleton]
          omega
        · rw [hentry1]; exact hc1
        · rw [hm]; exact hlook
        · rw [hentry2]; exact hc2
      · intro p pos hh
        obtain ⟨m, hmlt, hc1, hc2, hlook⟩ := hstructn.2 p pos hh
        have hpmem := List.mem_of_mem_head? hh
        have hplt : p < j := (incoming_src_lt hf hpmem).1
        have hpos2 : pos < 2 := by
          obtain ⟨hq, hql, _, _⟩ := mem_incomingEdges.mp hpmem
          rw [valid_edges_len hf hq] at hql
          exact hql
        refine ⟨m, ?_, ?_, ?_, ?_⟩
        · rw [hm]
          simp only [List.length_append, List.length_singleton]
          omega
        · rw [hentry1]; exact hc1
        · rw [hentry2]; exact hc2
        · rw [hm, hentryOld (2 * p + pos) (by omega)]
          exact hlook
    · obtain ⟨harm1, harm2⟩ := inv.structFact j (by omega) hj2
      constructor
      · intro hroot
        obtain ⟨m, hmlt, hc1, hlook, hc2⟩ := harm1 hroot
        refine ⟨m, ?_, ?_, ?_, ?_⟩
        · rw [hm]
          simp only [List.length_append, List.length_singleton]
          omega
        · rw [hentryOld (2 * j) (by omega)]; exact hc1
        · rw [hm, List.getElem?_append_left hmlt]; exact hlook
        · rw [hentryOld (2 * j + 1) (by omega)]; exact hc2
      · intro p pos hh
        obtain ⟨m, hmlt, hc1, hc2, hlook⟩ := harm2 p pos hh
        have hpmem := List.mem_of_mem_head? hh
        have hplt : p < j := (incoming_src_lt hf hpmem).1
        have hpos2 : pos < 2 := by
          obtain ⟨hq, hql, _, _⟩ := mem_incomingEdges.mp hpmem
          rw [valid_edges_len hf hq] at hql
          exact hql
        refine ⟨m, ?_, ?_, ?_, ?_⟩
        · rw [hm]
          simp only [List.length_append, List.length_singleton]
          omega
        · rw [hentryOld (2 * j) (by omega)]; exact hc1
        · rw [hentryOld (2 * j + 1) (by omega)]; exact hc2
        · rw [hm, List.getElem?_append_left hmlt, hentryOld (2 * p + pos) (by omega)]
          exact hlook

/-- The invariant holds of the completed phase B. -/
theorem BInvP_phaseB {α : Type} {f : ForestPredictor α} (hf : validForest f = true)
    {sa : AState α} (invA : AInvP f f.interiorNodes.length sa) :
    ∀ n, n ≤ f.interiorNodes.length → BInvP f sa n (phaseB f sa.splitInds sa n) := by
  intro n
  induction n with
  | zero => intro _; exact BInvP_init f sa
  | succ n ih =>
      intro h
      exact BInvP_step hf invA (by omega) (ih (by omega))

/-- Every edge on the taken path below an active node is itself an edge whose
source is active and whose position matches the source's split decision. -/
theorem path_edge_active {α : Type} {f : ForestPredictor α} (hf : validForest f = true)
    (x : α) : ∀ d j, j < f.interiorNodes.length → f.interiorNodes.length - j ≤ d →
    activeNode f x j = true → ∀ e ∈ pathEdges f x j,
    e / 2 < f.interiorNodes.length ∧ activeNode f x (e / 2) = true ∧
      takenPos f x (e / 2) = e % 2 := by
  intro d
  induction d with
  | zero => intro j hj hd; omega
  | succ d ih =>
      intro j hj hd hact e hmem
      rw [pathEdges_unfold hf x hj] at hmem
      simp only [List.mem_cons] at hmem
      have htp2 : takenPos f x j < 2 := by unfold takenPos; split <;> omega
      rcases hmem with rfl | hmem
      · rw [valid_fei hf hj]
        constructor
        · omega
        rw [show (2 * j + takenPos f x j) / 2 = j by omega,
          show (2 * j + takenPos f x j) % 2 = takenPos f x j by omega]
        exact ⟨hact, rfl⟩
      · -- the tail: the path below the taken edge's interior target
        by_cases hint : ((nodeAt f j).outgoingEdges.getD (takenPos f x j) default).targetIsInterior = true
        · rw [if_pos hint] at hmem
          set t := ((nodeAt f j).outgoingEdges.getD (takenPos f x j) default).targetNodeIndex with ht
          obtain ⟨hgt, hlt⟩ := valid_target hf hj (taken_edge_mem hf hj x) hint
          have hmemt : (j, takenPos f x j) ∈ incomingEdges f t :=
            mem_incomingEdges.mpr ⟨hj, takenPos_lt hf hj x, hint, rfl⟩
          have hheadt := incoming_head hf hlt hmemt
          have hactt : activeNode f x t = true := by
            rw [activeNode_parent hf x hheadt, hact]
            simp
          exact ih t hlt (by omega) hactt e hmem
        · rw [if_neg hint] at hmem
          exact absurd hmem (List.not_mem_nil e)

/-- The taken path below an active node is contained in the taken path from
some root: follow the unique parents upward. -/
theorem active_path_root {α : Type} {f : ForestPredictor α} (hf : validForest f = true)
    (x : α) : ∀ j, j < f.interiorNodes.length → activeNode f x j = true →
    ∃ r ∈ f.rootIndices, pathEdges f x j ⊆ pathEdges f x r := by
  intro j
  induction j using Nat.strong_induction_on with
  | _ j ih =>
      intro hj hact
      cases hhead : (incomingEdges f j).head? with
      | none =>
          have hroot : incomingEdges f j = [] := List.head?_eq_none_iff.mp hhead
          exact ⟨j, (valid_root_iff hf hj).mpr hroot, fun a ha => ha⟩
      | some ppos =>
          obtain ⟨p, pos⟩ := ppos
          have hpmem := List.mem_of_mem_head? hhead
          obtain ⟨hplt, hpK⟩ := incoming_src_lt hf hpmem
          rw [activeNode_parent hf x hhead] at hact
          simp only [Bool.and_eq_true, beq_iff_eq] at hact
          obtain ⟨hactp, htaken⟩ := hact
          obtain ⟨r, hr, hsub⟩ := ih p hplt hpK hactp
          refine ⟨r, hr, fun a ha => hsub ?_⟩
          rw [pathEdges_unfold hf x hpK]
          obtain ⟨_, _, hint, htgt⟩ := mem_incomingEdges.mp hpmem
          rw [htaken]
          simp only [hint, if_pos, htgt]
          exact List.mem_cons_of_mem _ ha

/-- The spec-modelled per-edge indicator vector, rewritten edge by edge as
"the edge's source node is reached and its position is the taken one". -/
theorem edgeIndicator_eq_active {α : Type} {f : ForestPredictor α}
    (hf : validForest f = true) (x : α) :
    edgeIndicatorVec f x = (List.range (numEdges f)).map
      (fun e => activeNode f x (e / 2) && (takenPos f x (e / 2) == e % 2)) := by
  unfold edgeIndicatorVec
  apply List.map_congr_left
  intro e he
  rw [List.mem_range] at he
  have heK : e / 2 < f.interiorNodes.length := by unfold numEdges at he; omega
  have he2 : e % 2 < 2 := Nat.mod_lt e (by omega)
  have hiff : (f.rootIndices.any fun r =>
      (pathEdgesAux f x (f.interiorNodes.length - r) r).contains e) = true ↔
      (activeNode f x (e / 2) && (takenPos f x (e / 2) == e % 2)) = true := by
    rw [List.any_eq_true]
    constructor
    · rintro ⟨r, hr, hcont⟩
      have hrK := valid_root_lt hf hr
      have hmem : e ∈ pathEdges f x r := List.elem_iff.mp hcont
      have hactr : activeNode f x r = true :=
        activeNode_root x ((valid_root_iff hf hrK).mp hr)
      obtain ⟨_, ha, ht⟩ :=
        path_edge_active hf x (f.interiorNodes.length - r) r hrK (by omega) hactr e hmem
      simp [ha, ht]
    · intro h
      simp only [Bool.and_eq_true, beq_iff_eq] at h
      obtain ⟨ha, ht⟩ := h
      obtain ⟨r, hr, hsub⟩ := active_path_root hf x (e / 2) heK ha
      refine ⟨r, hr, List.elem_iff.mpr (hsub ?_)⟩
      rw [pathEdges_unfold hf x heK, valid_fei hf heK, ht,
        show 2 * (e / 2) + e % 2 = e by omega]
      exact List.mem_cons_self _ _
  cases hc : (f.rootIndices.any fun r =>
      (pathEdgesAux f x (f.interiorNodes.length - r) r).contains e) with
  | true => exact (hiff.mp hc).symm
  | false =>
      cases hc2 : (activeNode f x (e / 2) && (takenPos f x (e / 2) == e % 2)) with
      | true => rw [hiff.mpr hc2] at hc; exact absurd hc (by simp)
      | false => rfl

theorem refineNode_treeOutputsPE_eq {α : Type} (f : ForestPredictor α) :
    (refineNode f).treeOutputsPE =
      f.rootIndices.foldl (fun pe r => pe ++ (phaseAFinal f).subModels.getD r []) [] := rfl

theorem refineNode_model_eq {α : Type} (f : ForestPredictor α) :
    (refineNode f).model = ((phaseBFinal f).model ++ [.constantNode f.bias]) ++
      [.sumNode (refineNode f).sumNodeInputs] := rfl

theorem refineNode_sumNodeInputs_eq {α : Type} (f : ForestPredictor α) :
    (refineNode f).sumNodeInputs =
      (refineNode f).treeOutputsPE ++ [((phaseBFinal f).model.length, 0)] := rfl

theorem refineNode_outputPE_eq {α : Type} (f : ForestPredictor α) :
    (refineNode f).outputPE = [((phaseBFinal f).model.length + 1, 0)] := by
  have h : (refineNode f).outputPE =
      [(((phaseBFinal f).model ++ [PrimNode.constantNode f.bias]).length, 0)] := rfl
  rw [h]
  simp

theorem refineNode_edgeIndicatorPE_eq {α : Type} (f : ForestPredictor α) :
    (refineNode f).edgeIndicatorPE = (phaseBFinal f).edgeInd.flatten := rfl

theorem foldl_append_eq_flatten {β γ : Type} (l : List γ) (g : γ → List β) :
    ∀ init : List β, l.foldl (fun pe r => pe ++ g r) init = init ++ (l.map g).flatten := by
  induction l with
  | nil => intro init; simp
  | cons r rest ih =>
      intro init
      simp only [List.foldl_cons, List.map_cons, List.flatten_cons, ih]
      simp

theorem denote_pe_append (outs : List (List Val)) (a b : PE) :
    denote outs (a ++ b) = denote outs a ++ denote outs b := List.map_append _ a b

theorem denoteQ_pe_append (outs : List (List Val)) (a b : PE) :
    denoteQ outs (a ++ b) = denoteQ outs a ++ denoteQ outs b := by
  unfold denoteQ
  rw [denote_pe_append, List.map_append]

theorem denoteB_pe_append (outs : List (List Val)) (a b : PE) :
    denoteB outs (a ++ b) = denoteB outs a ++ denoteB outs b := by
  unfold denoteB
  rw [denote_pe_append, List.map_append]

/-- Indicator vectors: the concatenation of per-edge singleton views denotes the
per-edge value list. -/
theorem denoteB_flatten_eq_map (outs : List (List Val)) :
    ∀ (l : List PE) (g : Nat → Bool),
    (∀ e, e < l.length → denoteB outs (l.getD e []) = [g e]) →
    denoteB outs l.flatten = (List.range l.length).map g := by
  intro l
  induction l with
  | nil => intro g h; rfl
  | cons pe rest ih =>
      intro g h
      rw [List.flatten_cons, denoteB_pe_append]
      have h0 : denoteB outs pe = [g 0] := h 0 (by simp)
      have hrest : denoteB outs rest.flatten =
          (List.range rest.length).map (fun e => g (e + 1)) := by
        apply ih
        intro e he
        exact h (e + 1) (by simpa using he)
      rw [h0, hrest, List.length_cons, List.range_succ_eq_map]
      simp [Function.comp]

theorem AInvP_final {α : Type} {f : ForestPredictor α} (hf : validForest f = true) :
    AInvP f f.interiorNodes.length (phaseAFinal f) :=
  AInvP_phaseA hf f.interiorNodes.length le_rfl

theorem BInvP_final {α : Type} {f : ForestPredictor α} (hf : validForest f = true) :
    BInvP f (phaseAFinal f) f.interiorNodes.length (phaseBFinal f) :=
  BInvP_phaseB hf (AInvP_final hf) f.interiorNodes.length le_rfl

/-- The refined model extends the phase A model. -/
theorem refineNode_model_ext {α : Type} {f : ForestPredictor α} (hf : validForest f = true) :
    ∃ rest, (refineNode f).model = (phaseAFinal f).model ++ rest := by
  obtain ⟨tail, htail⟩ := (BInvP_final hf).ext
  exact ⟨tail ++ [.constantNode f.bias, .sumNode (refineNode f).sumNodeInputs],
    by rw [refineNode_model_eq, htail]; simp⟩

/-- The concatenated root sub-models denote the per-tree values, are well
formed over the phase A model, and have one element per root. -/
theorem roots_flatten_facts {α : Type} {f : ForestPredictor α} (hf : validForest f = true)
    (M : List (PrimNode α)) (rest : List (PrimNode α))
    (hM : M = (phaseAFinal f).model ++ rest) :
    ∀ (roots : List Nat), (∀ r ∈ roots, r < f.interiorNodes.length) →
    (∀ x, denoteQ (evalNodes x M)
      ((roots.map fun r => (phaseAFinal f).subModels.getD r []).flatten) =
      roots.map (treeValue f x)) ∧
    wfPE ((roots.map fun r => (phaseAFinal f).subModels.getD r []).flatten)
      (phaseAFinal f).model.length ∧
    ((roots.map fun r => (phaseAFinal f).subModels.getD r []).flatten).length =
      roots.length := by
  intro roots hroots
  induction roots with
  | nil => exact ⟨fun x => rfl, fun r hr => absurd hr (List.not_mem_nil r), rfl⟩
  | cons r rest' ih =>
      have hrK : r < f.interiorNodes.length := hroots r (List.mem_cons_self r rest')
      obtain ⟨id, hgetd, hid, hread⟩ := (AInvP_final hf).subFact r (by omega) hrK
      obtain ⟨ihden, ihwf, ihlen⟩ := ih (fun a ha => hroots a (List.mem_cons_of_mem r ha))
      refine ⟨?_, ?_, ?_⟩
      · intro x
        rw [List.map_cons, List.flatten_cons, denoteQ_pe_append, ihden x, hgetd]
        have : denoteQ (evalNodes x M) [(id, 0)] = [treeValue f x r] := by
          unfold denoteQ denote
          simp only [List.map_cons, List.map_nil]
          rw [hM, readRef_evalNodes_append x _ _ _ hid, hread x]
          rfl
        rw [this]
        rfl
      · intro a ha
        rw [List.map_cons, List.flatten_cons] at ha
        rcases List.mem_append.mp ha with h1 | h2
        · rw [hgetd] at h1
          simp only [List.mem_singleton] at h1
          subst h1
          exact hid
        · exact ihwf a h2
      · rw [List.map_cons, List.flatten_cons, List.length_append, ihlen, hgetd]
        simp only [List.length_cons, List.length_nil]
        omega

/-- A list of `2*K` chunks flattens the same as its `K` consecutive pairs. -/
theorem pair_chunks_flatten {β : Type} :
    ∀ (K : Nat) (l : List (List β)), l.length = 2 * K →
    ((List.range K).map fun i => l.getD (2 * i) [] ++ l.getD (2 * i + 1) []).flatten =
      l.flatten := by
  intro K
  induction K with
  | zero =>
      intro l hl
      have h0 : l = [] := List.length_eq_zero.mp (by omega)
      subst h0
      rfl
  | succ K ih =>
      intro l hl
      match l with
      | a :: b :: t =>
          rw [List.range_succ_eq_map, List.map_cons, List.map_map, List.flatten_cons]
          have hshift : (List.range K).map
              ((fun i => (a :: b :: t).getD (2 * i) [] ++ (a :: b :: t).getD (2 * i + 1) []) ∘
                (· + 1)) =
              (List.range K).map fun i => t.getD (2 * i) [] ++ t.getD (2 * i + 1) [] := by
            apply List.map_congr_left
            intro i _
            show (a :: b :: t).getD (2 * (i + 1)) [] ++ (a :: b :: t).getD (2 * (i + 1) + 1) [] = _
            rw [show 2 * (i + 1) = (2 * i + 1) + 1 by omega]
            rfl
          rw [hshift, ih t (by simp only [List.length_cons] at hl; omega)]
          show (a ++ b) ++ t.flatten = a ++ (b ++ t.flatten)
          rw [List.append_assoc]

theorem flatten_length_of_singletons {β : Type} :
    ∀ l : List (List β), (∀ e, e < l.length → (l.getD e []).length = 1) →
    l.flatten.length = l.length := by
  intro l
  induction l with
  | nil => intro _; rfl
  | cons pe rest ih =>
      intro h
      rw [List.flatten_cons, List.length_append, List.length_cons,
        ih (fun e he => h (e + 1) (by simpa using he))]
      have h0 := h 0 (by simp)
      simp only [List.getD_eq_getElem?_getD] at h0
      simp at h0
      omega

theorem treeOutputsPE_facts {α : Type} {f : ForestPredictor α} (hf : validForest f = true) :
    (∀ x, denoteQ (evalNodes x (refineNode f).model) (refineNode f).treeOutputsPE =
      f.rootIndices.map (treeValue f x)) ∧
    wfPE (refineNode f).treeOutputsPE (phaseAFinal f).model.length ∧
    (refineNode f).treeOutputsPE.length = numTrees f := by
  obtain ⟨rest, hrest⟩ := refineNode_model_ext hf
  have heq : (refineNode f).treeOutputsPE =
      (f.rootIndices.map fun r => (phaseAFinal f).subModels.getD r []).flatten := by
    rw [refineNode_treeOutputsPE_eq, foldl_append_eq_flatten]
    rfl
  obtain ⟨hden, hwf, hlen⟩ := roots_flatten_facts hf _ rest hrest f.rootIndices
    (fun r hr => valid_root_lt hf hr)
  rw [heq]
  exact ⟨hden, hwf, by rw [hlen]; rfl⟩

theorem sumNode_value {α : Type} {f : ForestPredictor α} (hf : validForest f = true) (x : α) :
    readRef (evalNodes x (refineNode f).model) ((phaseBFinal f).model.length + 1, 0) =
      Val.q (predict f x) := by
  obtain ⟨tail, htail⟩ := (BInvP_final hf).ext
  obtain ⟨hfullden, hwf, _⟩ := treeOutputsPE_facts hf
  -- the denotation of the summing node's tree inputs at the prefix model
  have hprefden : denoteQ (evalNodes x ((phaseBFinal f).model ++ [.constantNode f.bias]))
      (refineNode f).treeOutputsPE = f.rootIndices.map (treeValue f x) := by
    have h2 := denote_evalNodes_append x ((phaseBFinal f).model ++ [.constantNode f.bias])
      [.sumNode (refineNode f).sumNodeInputs] (refineNode f).treeOutputsPE
      (fun r hr => by
        have := hwf r hr
        rw [htail]
        simp only [List.length_append]
        omega)
    rw [← refineNode_model_eq] at h2
    unfold denoteQ at hfullden ⊢
    have h3 := hfullden x
    rw [h2] at h3
    exact h3
  rw [refineNode_model_eq,
    show (phaseBFinal f).model.length + 1 =
      ((phaseBFinal f).model ++ [PrimNode.constantNode f.bias]).length by simp,
    readRef_last]
  simp only [evalPrim]
  rw [refineNode_sumNodeInputs_eq, denote_pe_append]
  have hbias : denote (evalNodes x ((phaseBFinal f).model ++ [PrimNode.constantNode f.bias]))
      [((phaseBFinal f).model.length, 0)] = [Val.q f.bias] := by
    unfold denote
    simp only [List.map_cons, List.map_nil]
    rw [readRef_last]
    rfl
  rw [hbias, List.map_append]
  unfold denoteQ at hprefden
  rw [hprefden]
  show Val.q ((f.rootIndices.map (treeValue f x) ++ [f.bias]).sum) = _
  rw [List.sum_append]
  simp [predict]

theorem edgeIndPE_facts {α : Type} {f : ForestPredictor α} (hf : validForest f = true) :
    (∀ x, denoteB (evalNodes x (refineNode f).model) (refineNode f).edgeIndicatorPE =
      computeEdgeIndicatorVector f x) ∧
    (refineNode f).edgeIndicatorPE.length = numEdges f := by
  have hlenE : (phaseBFinal f).edgeInd.length = numEdges f := (BInvP_final hf).lenE
  have hKE : (phaseBFinal f).edgeInd.length = 2 * f.interiorNodes.length := hlenE
  have hMfull : (refineNode f).model = (phaseBFinal f).model ++
      ([.constantNode f.bias] ++ [.sumNode (refineNode f).sumNodeInputs]) := by
    rw [refineNode_model_eq, List.append_assoc]
  have hpoint : ∀ x e, e < (phaseBFinal f).edgeInd.length →
      denoteB (evalNodes x (refineNode f).model) ((phaseBFinal f).edgeInd.getD e []) =
      [activeNode f x (e / 2) && (takenPos f x (e / 2) == e % 2)] := by
    intro x e he
    have heK : e / 2 < f.interiorNodes.length := by omega
    obtain ⟨w1, w2, v1, v2⟩ := (BInvP_final hf).visited (e / 2) heK heK
    have he2 : e % 2 < 2 := Nat.mod_lt e (by omega)
    rcases (by omega : e % 2 = 0 ∨ e % 2 = 1) with h2 | h2
    · rw [show e = 2 * (e / 2) by omega]
      rw [hMfull, denoteB_evalNodes_append x _ _ _ w1, v1 x,
        show (2 * (e / 2)) % 2 = 0 by omega, show 2 * (e / 2) / 2 = e / 2 by omega,
        takenPos_beq_zero]
    · rw [show e = 2 * (e / 2) + 1 by omega]
      rw [hMfull, denoteB_evalNodes_append x _ _ _ w2, v2 x,
        show (2 * (e / 2) + 1) % 2 = 1 by omega, show (2 * (e / 2) + 1) / 2 = e / 2 by omega,
        takenPos_beq_one]
  constructor
  · intro x
    rw [refineNode_edgeIndicatorPE_eq,
      denoteB_flatten_eq_map _ (phaseBFinal f).edgeInd
        (fun e => activeNode f x (e / 2) && (takenPos f x (e / 2) == e % 2)) (hpoint x),
      hlenE]
    unfold computeEdgeIndicatorVector
    rw [edgeIndicator_eq_active hf x]
  · rw [refineNode_edgeIndicatorPE_eq, flatten_length_of_singletons _ ?_, hlenE]
    intro e he
    have heK : e / 2 < f.interiorNodes.length := by omega
    obtain ⟨harm1, harm2⟩ := (BInvP_final hf).structFact (e / 2) heK heK
    have hshape : ((phaseBFinal f).edgeInd.getD (2 * (e / 2)) []).length = 1 ∧
        ((phaseBFinal f).edgeInd.getD (2 * (e / 2) + 1) []).length = 1 := by
      cases hh : (incomingEdges f (e / 2)).head? with
      | none =>
          obtain ⟨m, _, hc1, _, hc2⟩ := harm1 (List.head?_eq_none_iff.mp hh)
          obtain ⟨sid, hsgetd, _, _⟩ :=
            (AInvP_final hf).splitFact (e / 2) (by omega) heK
          rw [hc1, hc2, hsgetd]
          exact ⟨rfl, rfl⟩
      | some ppos =>
          obtain ⟨p, pos⟩ := ppos
          obtain ⟨m, _, hc1, hc2, _⟩ := harm2 p pos hh
          rw [hc1, hc2]
          exact ⟨rfl, rfl⟩
    rcases (by omega : e % 2 = 0 ∨ e % 2 = 1) with h2 | h2
    · rw [show e = 2 * (e / 2) by omega]
      exact hshape.1
    · rw [show e = 2 * (e / 2) + 1 by omega]
      exact hshape.2

/-- C1: for every `ForestPredictor` satisfying the structural invariants of
spec §3 and every input, evaluating the subgraph produced by
`ForestNode::RefineNode` in topological order yields the same three outputs —
total value, per-tree values in root-index order, and edge-indicator vector in
first-edge-index order — as a single `ForestNode::Compute()` on the unrefined
node. -/
theorem claim_C1_refine_equivalence {α : Type} (f : ForestPredictor α)
    (hf : validForest f = true) (x : α) :
    denoteQ (evalNodes x (refineNode f).model) (refineNode f).outputPE =
      computeOutput f x ∧
    denoteQ (evalNodes x (refineNode f).model) (refineNode f).treeOutputsPE =
      computeTreeOutputs f x ∧
    denoteB (evalNodes x (refineNode f).model) (refineNode f).edgeIndicatorPE =
      computeEdgeIndicatorVector f x := by
  refine ⟨?_, ?_, ?_⟩
  · rw [refineNode_outputPE_eq]
    unfold denoteQ denote
    simp only [List.map_cons, List.map_nil]
    rw [sumNode_value hf x]
    rfl
  · rw [(treeOutputsPE_facts hf).1 x]
    rfl
  · exact (edgeIndPE_facts hf).1 x

theorem claim_C1_witness :
    validForest exampleForest2 = true ∧
    (denoteQ (evalNodes (-5 : ℚ) (refineNode exampleForest2).model)
        (refineNode exampleForest2).outputPE = computeOutput exampleForest2 (-5) ∧
     denoteQ (evalNodes (-5 : ℚ) (refineNode exampleForest2).model)
        (refineNode exampleForest2).treeOutputsPE = computeTreeOutputs exampleForest2 (-5) ∧
     denoteB (evalNodes (-5 : ℚ) (refineNode exampleForest2).model)
        (refineNode exampleForest2).edgeIndicatorPE =
       computeEdgeIndicatorVector exampleForest2 (-5)) :=
  ⟨rfl, claim_C1_refine_equivalence exampleForest2 rfl (-5)⟩

/-- C2: in phase C of `RefineNode`, the total output is the value of the single
summing node whose inputs are the node values of all tree roots in
`GetRootIndices` order plus one constant node holding the bias; the per-tree
outputs are mapped to exactly those root node values, unsummed and without the
bias. -/
theorem claim_C2_phaseC_assembly {α : Type} (f : ForestPredictor α)
    (hf : validForest f = true) :
    (refineNode f).model[(refineNode f).sumNodeId]? =
      some (.sumNode (refineNode f).sumNodeInputs) ∧
    (refineNode f).sumNodeInputs =
      (refineNode f).treeOutputsPE ++ [((refineNode f).biasNodeId, 0)] ∧
    (refineNode f).model[(refineNode f).biasNodeId]? = some (.constantNode f.bias) ∧
    (refineNode f).outputPE = [((refineNode f).sumNodeId, 0)] ∧
    (refineNode f).treeOutputsPE =
      (f.rootIndices.map fun r => (phaseAFinal f).subModels.getD r []).flatten ∧
    ∀ x, denoteQ (evalNodes x (refineNode f).model) (refineNode f).treeOutputsPE =
      f.rootIndices.map (treeValue f x) := by
  refine ⟨?_, rfl, ?_, rfl, ?_, (treeOutputsPE_facts hf).1⟩
  · rw [refineNode_model_eq,
      show (refineNode f).sumNodeId =
        ((phaseBFinal f).model ++ [PrimNode.constantNode f.bias]).length from rfl,
      List.getElem?_concat_length]
  · rw [refineNode_model_eq,
      show (refineNode f).biasNodeId = (phaseBFinal f).model.length from rfl,
      List.getElem?_append_left (by simp), List.getElem?_concat_length]
  · rw [refineNode_treeOutputsPE_eq, foldl_append_eq_flatten]
    rfl

theorem claim_C2_witness :
    validForest exampleForest = true ∧
    ((refineNode exampleForest).model[(refineNode exampleForest).sumNodeId]? =
      some (.sumNode (refineNode exampleForest).sumNodeInputs) ∧
    (refineNode exampleForest).sumNodeInputs =
      (refineNode exampleForest).treeOutputsPE ++ [((refineNode exampleForest).biasNodeId, 0)] ∧
    (refineNode exampleForest).model[(refineNode exampleForest).biasNodeId]? =
      some (.constantNode exampleForest.bias) ∧
    (refineNode exampleForest).outputPE = [((refineNode exampleForest).sumNodeId, 0)] ∧
    (refineNode exampleForest).treeOutputsPE =
      (exampleForest.rootIndices.map fun r =>
        (phaseAFinal exampleForest).subModels.getD r []).flatten ∧
    ∀ x, denoteQ (evalNodes x (refineNode exampleForest).model)
      (refineNode exampleForest).treeOutputsPE =
      exampleForest.rootIndices.map (treeValue exampleForest x)) :=
  ⟨rfl, claim_C2_phaseC_assembly exampleForest rfl⟩

/-- C3: in phase B, a non-root interior node's child indicators are gated by
the first edge anywhere in the forest whose target is that node: the two child
edge indicators are the two outputs of a single 2-output multiplexor applied to
that parent edge's indicator and the node's split-rule boolean, equal to
(parent AND NOT split) and (parent AND split). -/
theorem claim_C3_nonroot_mux {α : Type} (f : ForestPredictor α)
    (hf : validForest f = true) {i : Nat} (hi : i < f.interiorNodes.length)
    (hnonroot : i ∉ f.rootIndices) :
    ∃ p pos m,
      (incomingEdges f i).head? = some (p, pos) ∧
      (phaseBFinal f).edgeInd.getD (2 * i) [] = [(m, 0)] ∧
      (phaseBFinal f).edgeInd.getD (2 * i + 1) [] = [(m, 1)] ∧
      (phaseBFinal f).model[m]? = some (.multiplexorNode
        ((phaseBFinal f).edgeInd.getD (2 * p + pos) [])
        ((phaseAFinal f).splitInds.getD i [])) ∧
      ∀ x,
        denoteB (evalNodes x (phaseBFinal f).model)
            ((phaseBFinal f).edgeInd.getD (2 * i) []) =
          [(denoteB (evalNodes x (phaseBFinal f).model)
              ((phaseBFinal f).edgeInd.getD (2 * p + pos) [])).headD false &&
            !((nodeAt f i).splitRule x)] ∧
        denoteB (evalNodes x (phaseBFinal f).model)
            ((phaseBFinal f).edgeInd.getD (2 * i + 1) []) =
          [(denoteB (evalNodes x (phaseBFinal f).model)
              ((phaseBFinal f).edgeInd.getD (2 * p + pos) [])).headD false &&
            (nodeAt f i).splitRule x] := by
  have hne : incomingEdges f i ≠ [] := fun h => hnonroot ((valid_root_iff hf hi).mpr h)
  obtain ⟨p, pos, hhead⟩ : ∃ p pos, (incomingEdges f i).head? = some (p, pos) := by
    cases hl : incomingEdges f i with
    | nil => exact absurd hl hne
    | cons a rest => exact ⟨a.1, a.2, rfl⟩
  have hpmem := List.mem_of_mem_head? hhead
  obtain ⟨hplt, hpK⟩ := incoming_src_lt hf hpmem
  have hpos2 : pos < 2 := by
    obtain ⟨_, hql, _, _⟩ := mem_incomingEdges.mp hpmem
    rw [valid_edges_len hf hpK] at hql
    exact hql
  obtain ⟨_, harm2⟩ := (BInvP_final hf).structFact i hi hi
  obtain ⟨m, hmlt, hc1, hc2, hlook⟩ := harm2 p pos hhead
  obtain ⟨w1, w2, hv1, hv2⟩ := (BInvP_final hf).visited i hi hi
  obtain ⟨pw1, pw2, pv1, pv2⟩ := (BInvP_final hf).visited p (by omega) hpK
  have hPden : ∀ x, denoteB (evalNodes x (phaseBFinal f).model)
      ((phaseBFinal f).edgeInd.getD (2 * p + pos) []) = [activeNode f x i] := by
    intro x
    rcases (by omega : pos = 0 ∨ pos = 1) with rfl | rfl
    · rw [show 2 * p + 0 = 2 * p from rfl, pv1 x,
        activeNode_parent hf x hhead, takenPos_beq_zero]
    · rw [pv2 x, activeNode_parent hf x hhead, takenPos_beq_one]
  refine ⟨p, pos, m, hhead, hc1, hc2, hlook, ?_⟩
  intro x
  rw [hPden x, hv1 x, hv2 x]
  exact ⟨rfl, rfl⟩

theorem claim_C3_witness :
    (validForest exampleForest2 = true ∧ 1 < exampleForest2.interiorNodes.length ∧
      1 ∉ exampleForest2.rootIndices) ∧
    (∃ p pos m,
      (incomingEdges exampleForest2 1).head? = some (p, pos) ∧
      (phaseBFinal exampleForest2).edgeInd.getD (2 * 1) [] = [(m, 0)] ∧
      (phaseBFinal exampleForest2).edgeInd.getD (2 * 1 + 1) [] = [(m, 1)] ∧
      (phaseBFinal exampleForest2).model[m]? = some (.multiplexorNode
        ((phaseBFinal exampleForest2).edgeInd.getD (2 * p + pos) [])
        ((phaseAFinal exampleForest2).splitInds.getD 1 [])) ∧
      ∀ x,
        denoteB (evalNodes x (phaseBFinal exampleForest2).model)
            ((phaseBFinal exampleForest2).edgeInd.getD (2 * 1) []) =
          [(denoteB (evalNodes x (phaseBFinal exampleForest2).model)
              ((phaseBFinal exampleForest2).edgeInd.getD (2 * p + pos) [])).headD false &&
            !((nodeAt exampleForest2 1).splitRule x)] ∧
        denoteB (evalNodes x (phaseBFinal exampleForest2).model)
            ((phaseBFinal exampleForest2).edgeInd.getD (2 * 1 + 1) []) =
          [(denoteB (evalNodes x (phaseBFinal exampleForest2).model)
              ((phaseBFinal exampleForest2).edgeInd.getD (2 * p + pos) [])).headD false &&
            (nodeAt exampleForest2 1).splitRule x]) :=
  ⟨⟨rfl, by decide, by decide⟩,
    claim_C3_nonroot_mux exampleForest2 rfl (by decide) (by decide)⟩

/-- C4: in phase B, a tree root's edge-0 indicator is the logical NOT of its
split-rule output and its edge-1 indicator is the split-rule output itself, and
the exposed edge-indicator vector is the concatenation, across interior nodes
in ascending first-edge-index order, of each node's two edge-indicator outputs,
one entry per forest edge. -/
theorem claim_C4_root_and_concat {α : Type} (f : ForestPredictor α)
    (hf : validForest f = true) :
    (∀ i, i < f.interiorNodes.length → i ∈ f.rootIndices →
      ∀ x,
        denoteB (evalNodes x (phaseBFinal f).model)
            ((phaseBFinal f).edgeInd.getD (2 * i) []) = [!((nodeAt f i).splitRule x)] ∧
        denoteB (evalNodes x (phaseBFinal f).model)
            ((phaseBFinal f).edgeInd.getD (2 * i + 1) []) = [(nodeAt f i).splitRule x]) ∧
    (refineNode f).edgeIndicatorPE =
      ((List.range f.interiorNodes.length).map fun i =>
        (phaseBFinal f).edgeInd.getD ((nodeAt f i).firstEdgeIndex) [] ++
        (phaseBFinal f).edgeInd.getD ((nodeAt f i).firstEdgeIndex + 1) []).flatten ∧
    (refineNode f).edgeIndicatorPE.length = numEdges f := by
  refine ⟨?_, ?_, (edgeIndPE_facts hf).2⟩
  · intro i hi hroot x
    have hactive : activeNode f x i = true :=
      activeNode_root x ((valid_root_iff hf hi).mp hroot)
    obtain ⟨w1, w2, hv1, hv2⟩ := (BInvP_final hf).visited i hi hi
    rw [hv1 x, hv2 x, hactive]
    simp
  · rw [refineNode_edgeIndicatorPE_eq]
    have hmapeq : ((List.range f.interiorNodes.length).map fun i =>
        (phaseBFinal f).edgeInd.getD ((nodeAt f i).firstEdgeIndex) [] ++
        (phaseBFinal f).edgeInd.getD ((nodeAt f i).firstEdgeIndex + 1) []) =
        ((List.range f.interiorNodes.length).map fun i =>
        (phaseBFinal f).edgeInd.getD (2 * i) [] ++
        (phaseBFinal f).edgeInd.getD (2 * i + 1) []) := by
      apply List.map_congr_left
      intro i hi
      rw [valid_fei hf (List.mem_range.mp hi)]
    rw [hmapeq, pair_chunks_flatten f.interiorNodes.length _ (BInvP_final hf).lenE]

theorem claim_C4_witness :
    validForest exampleForest = true ∧
    ((∀ i, i < exampleForest.interiorNodes.length → i ∈ exampleForest.rootIndices →
      ∀ x,
        denoteB (evalNodes x (phaseBFinal exampleForest).model)
            ((phaseBFinal exampleForest).edgeInd.getD (2 * i) []) =
          [!((nodeAt exampleForest i).splitRule x)] ∧
        denoteB (evalNodes x (phaseBFinal exampleForest).model)
            ((phaseBFinal exampleForest).edgeInd.getD (2 * i + 1) []) =
          [(nodeAt exampleForest i).splitRule x]) ∧
    (refineNode exampleForest).edgeIndicatorPE =
      ((List.range exampleForest.interiorNodes.length).map fun i =>
        (phaseBFinal exampleForest).edgeInd.getD ((nodeAt exampleForest i).firstEdgeIndex) [] ++
        (phaseBFinal exampleForest).edgeInd.getD
          ((nodeAt exampleForest i).firstEdgeIndex + 1) []).flatten ∧
    (refineNode exampleForest).edgeIndicatorPE.length = numEdges exampleForest) :=
  ⟨rfl, claim_C4_root_and_concat exampleForest rfl⟩

/-- C5: both `Copy` and `RefineNode` register, before returning, exactly one
new `PortElements` mapping for each of the three output ports — output,
treeOutputs, edgeIndicatorVector — and no port is mapped more than once within
the pass. -/
theorem claim_C5_map_calls {α : Type} (f : ForestPredictor α) :
    (refineNode f).mapCalls.map Prod.fst =
      [.output, .treeOutputs, .edgeIndicatorVector] ∧
    ((refineNode f).mapCalls.map Prod.fst).Nodup ∧
    copyMapCalls = [.output, .treeOutputs, .edgeIndicatorVector] ∧
    copyMapCalls.Nodup := by
  refine ⟨rfl, ?_, rfl, ?_⟩ <;>
    · show ([PortName.output, PortName.treeOutputs, PortName.edgeIndicatorVector]).Nodup
      decide

/-- C6: for a forest with zero trees, the refined subgraph's summing node has
the bias constant node as its only input, the total output evaluates to the
bias alone, and the per-tree output mapping is empty. -/
theorem claim_C6_zero_trees {α : Type} (f : ForestPredictor α)
    (h0 : f.interiorNodes = []) (hr : f.rootIndices = []) :
    (refineNode f).sumNodeInputs = [((refineNode f).biasNodeId, 0)] ∧
    (refineNode f).model[(refineNode f).biasNodeId]? = some (.constantNode f.bias) ∧
    (∀ x, denoteQ (evalNodes x (refineNode f).model) (refineNode f).outputPE = [f.bias]) ∧
    (refineNode f).treeOutputsPE = [] := by
  obtain ⟨ins, roots, bias⟩ := f
  simp only at h0 hr
  subst h0
  subst hr
  refine ⟨rfl, rfl, ?_, rfl⟩
  intro x
  show List.map Val.toQ [readRef (evalNodes x [PrimNode.constantNode bias,
    PrimNode.sumNode [(0, 0)]]) (1, 0)] = [bias]
  show [Val.toQ ((([[Val.q bias],
    evalPrim x [[Val.q bias]] (PrimNode.sumNode [(0, 0)])]).getD 1 []).getD 0 (Val.q 0))] = _
  simp [evalPrim, denote, readRef, Val.toQ]

theorem claim_C6_witness :
    (emptyForest.interiorNodes = [] ∧ emptyForest.rootIndices = []) ∧
    ((refineNode emptyForest).sumNodeInputs = [((refineNode emptyForest).biasNodeId, 0)] ∧
    (refineNode emptyForest).model[(refineNode emptyForest).biasNodeId]? =
      some (.constantNode emptyForest.bias) ∧
    (∀ x, denoteQ (evalNodes x (refineNode emptyForest).model)
      (refineNode emptyForest).outputPE = [emptyForest.bias]) ∧
    (refineNode emptyForest).treeOutputsPE = []) :=
  ⟨⟨rfl, rfl⟩, claim_C6_zero_trees emptyForest rfl rfl⟩

/-- C9: under the parent-before-child ordering, every forest-supplied index
`RefineNode` dereferences is in bounds and reads an already initialized entry:
in the reverse-order phase A loop an interior edge target exceeds the visited
index and its `interiorNodeSubModels` entry was filled by an earlier iteration;
in the forward-order phase B loop a non-root node's recorded incoming-edge
index is a valid edge index whose `edgeIndicatorSubModels` entry was filled
while visiting the parent. -/
theorem claim_C9_access_safety {α : Type} (f : ForestPredictor α)
    (hf : validForest f = true) :
    (∀ n, n < f.interiorNodes.length →
      ∀ e ∈ (nodeAt f (f.interiorNodes.length - 1 - n)).outgoingEdges,
        e.targetIsInterior = true →
        f.interiorNodes.length - 1 - n < e.targetNodeIndex ∧
        e.targetNodeIndex < f.interiorNodes.length ∧
        (phaseA f n).subModels.getD e.targetNodeIndex [] ≠ []) ∧
    (∀ n, n < f.interiorNodes.length →
      ∀ pe, (phaseB f (phaseAFinal f).splitInds (phaseAFinal f) n).incoming.getD n none =
          some pe →
        pe < numEdges f ∧
        (phaseB f (phaseAFinal f).splitInds (phaseAFinal f) n).edgeInd.getD pe [] ≠ []) := by
  constructor
  · intro n hn e he hint
    have hi : f.interiorNodes.length - 1 - n < f.interiorNodes.length := by omega
    obtain ⟨hgt, hlt⟩ := valid_target hf hi he hint
    have inv := AInvP_phaseA hf n (by omega)
    obtain ⟨id, hgetd, _, _⟩ := inv.subFact e.targetNodeIndex (by omega) hlt
    exact ⟨hgt, hlt, by rw [hgetd]; simp⟩
  · intro n hn pe hpe
    have inv := BInvP_phaseB hf (AInvP_final hf) n (by omega)
    rw [inv.incomingFact n hn] at hpe
    obtain ⟨p, pos, hhead, hplt, hpeval⟩ :
        ∃ p pos, (incomingEdges f n).head? = some (p, pos) ∧ p < n ∧ pe = 2 * p + pos := by
      cases hh : (incomingEdges f n).head? with
      | none => rw [hh] at hpe; exact absurd hpe (by simp)
      | some a =>
          obtain ⟨p, pos⟩ := a
          rw [hh] at hpe
          have hpe' : (if p < n then some (2 * p + pos) else none) = some pe := hpe
          by_cases hp : p < n
          · rw [if_pos hp] at hpe'
            exact ⟨p, pos, rfl, hp, (Option.some.inj hpe').symm⟩
          · rw [if_neg hp] at hpe'
            exact absurd hpe' (by simp)
    have hpmem := List.mem_of_mem_head? hhead
    obtain ⟨hpK, hposlen, _, _⟩ := mem_incomingEdges.mp hpmem
    have hpos2 : pos < 2 := by rw [valid_edges_len hf hpK] at hposlen; exact hposlen
    constructor
    · unfold numEdges
      omega
    · subst hpeval
      obtain ⟨harm1, harm2⟩ := inv.structFact p hplt hpK
      rcases (by omega : pos = 0 ∨ pos = 1) with rfl | rfl
      · cases hh : (incomingEdges f p).head? with
        | none =>
            obtain ⟨m, _, hc1, _, _⟩ := harm1 (List.head?_eq_none_iff.mp hh)
            rw [show 2 * p + 0 = 2 * p from rfl, hc1]
            simp
        | some a =>
            obtain ⟨q, qpos⟩ := a
            obtain ⟨m, _, hc1, _, _⟩ := harm2 q qpos hh
            rw [show 2 * p + 0 = 2 * p from rfl, hc1]
            simp
      · cases hh : (incomingEdges f p).head? with
        | none =>
            obtain ⟨m, _, _, _, hc2⟩ := harm1 (List.head?_eq_none_iff.mp hh)
            obtain ⟨sid, hsgetd, _, _⟩ := (AInvP_final hf).splitFact p (by omega) hpK
            rw [hc2, hsgetd]
            simp
        | some a =>
            obtain ⟨q, qpos⟩ := a
            obtain ⟨m, _, _, hc2, _⟩ := harm2 q qpos hh
            rw [hc2]
            simp

theorem claim_C9_witness :
    validForest exampleForest2 = true ∧
    ((∀ n, n < exampleForest2.interiorNodes.length →
      ∀ e ∈ (nodeAt exampleForest2
          (exampleForest2.interiorNodes.length - 1 - n)).outgoingEdges,
        e.targetIsInterior = true →
        exampleForest2.interiorNodes.length - 1 - n < e.targetNodeIndex ∧
        e.targetNodeIndex < exampleForest2.interiorNodes.length ∧
        (phaseA exampleForest2 n).subModels.getD e.targetNodeIndex [] ≠ []) ∧
    (∀ n, n < exampleForest2.interiorNodes.length →
      ∀ pe, (phaseB exampleForest2 (phaseAFinal exampleForest2).splitInds
          (phaseAFinal exampleForest2) n).incoming.getD n none = some pe →
        pe < numEdges exampleForest2 ∧
        (phaseB exampleForest2 (phaseAFinal exampleForest2).splitInds
          (phaseAFinal exampleForest2) n).edgeInd.getD pe [] ≠ [])) :=
  ⟨rfl, claim_C9_access_safety exampleForest2 rfl⟩

/-- C10: `RefineNode` preserves every output port's arity — the mapped
`PortElements` for output, treeOutputs, and edgeIndicatorVector have element
counts 1, `NumTrees()`, and `NumEdges()`, the sizes fixed at construction. -/
theorem claim_C10_arities {α : Type} (f : ForestPredictor α)
    (hf : validForest f = true) :
    (refineNode f).mapCalls =
      [(.output, (refineNode f).outputPE), (.treeOutputs, (refineNode f).treeOutputsPE),
       (.edgeIndicatorVector, (refineNode f).edgeIndicatorPE)] ∧
    (refineNode f).outputPE.length = 1 ∧
    (refineNode f).treeOutputsPE.length = numTrees f ∧
    (refineNode f).edgeIndicatorPE.length = numEdges f := by
  refine ⟨rfl, ?_, (treeOutputsPE_facts hf).2.2, (edgeIndPE_facts hf).2⟩
  rw [refineNode_outputPE_eq]
  rfl

theorem claim_C10_witness :
    validForest exampleForest2 = true ∧
    ((refineNode exampleForest2).mapCalls =
      [(.output, (refineNode exampleForest2).outputPE),
       (.treeOutputs, (refineNode exampleForest2).treeOutputsPE),
       (.edgeIndicatorVector, (refineNode exampleForest2).edgeIndicatorPE)] ∧
    (refineNode exampleForest2).outputPE.length = 1 ∧
    (refineNode exampleForest2).treeOutputsPE.length = numTrees exampleForest2 ∧
    (refineNode exampleForest2).edgeIndicatorPE.length = numEdges exampleForest2) :=
  ⟨rfl, claim_C10_arities exampleForest2 rfl⟩

theorem decode_encode (d : Nat) (rest : List Nat) :
    decodeDelta (encodeDelta d ++ rest) = some (d, rest) := by
  suffices h : ∀ fuel d, d < fuel →
      decodeDelta (encodeDeltaAux fuel d ++ rest) = some (d, rest) by
    exact h (d + 1) d (by omega)
  intro fuel
  induction fuel with
  | zero => intro d hd; omega
  | succ fuel ih =>
      intro d hd
      show decodeDelta ((if d < 128 then [d]
        else (d % 128 + 128) :: encodeDeltaAux fuel (d / 128)) ++ rest) = some (d, rest)
      by_cases h128 : d < 128
      · rw [if_pos h128]
        show decodeDelta (d :: rest) = some (d, rest)
        unfold decodeDelta
        rw [if_pos h128]
      · rw [if_neg h128]
        show decodeDelta ((d % 128 + 128) :: (encodeDeltaAux fuel (d / 128) ++ rest)) = _
        unfold decodeDelta
        rw [if_neg (by omega), ih (d / 128) (by omega)]
        show some (d % 128 + 128 - 128 + 128 * (d / 128), rest) = some (d, rest)
        rw [show d % 128 + 128 - 128 + 128 * (d / 128) = d by omega]

theorem nonDecreasing_cons {a b : Nat} {t : List Nat}
    (h : nonDecreasing (a :: b :: t) = true) :
    a ≤ b ∧ nonDecreasing (b :: t) = true := by
  unfold nonDecreasing at h
  simp only [Bool.and_eq_true, decide_eq_true_eq] at h
  exact h

/-- Running the iterator over a delta buffer starting at value `prev` yields
`prev` followed by the encoded sequence, and one further `Next` invalidates. -/
theorem iter_run : ∀ (vs : List Nat) (prev : Nat), nonDecreasing (prev :: vs) = true →
    iterToList (vs.length + 1) ⟨ofListAux prev vs, prev, true⟩ = prev :: vs ∧
    (advanceN (vs.length + 1) ⟨ofListAux prev vs, prev, true⟩).valid = false := by
  intro vs
  induction vs with
  | nil =>
      intro prev _
      constructor
      · rfl
      · rfl
  | cons v vs ih =>
      intro prev hnd
      obtain ⟨hle, hnd'⟩ := nonDecreasing_cons hnd
      have hnext : Next ⟨ofListAux prev (v :: vs), prev, true⟩ =
          ⟨ofListAux v vs, v, true⟩ := by
        show Next ⟨encodeDelta (v - prev) ++ ofListAux v vs, prev, true⟩ = _
        unfold Next
        simp only [Bool.not_true, if_false, Bool.false_eq_true, decode_encode]
        have : prev + (v - prev) = v := by omega
        rw [this]
      obtain ⟨ih1, ih2⟩ := ih v hnd'
      constructor
      · show (if true = true then prev :: iterToList (vs.length + 1)
          (Next ⟨ofListAux prev (v :: vs), prev, true⟩) else []) = _
        rw [if_pos rfl, hnext, ih1]
      · show (advanceN (vs.length + 1) (Next ⟨ofListAux prev (v :: vs), prev, true⟩)).valid =
          false
        rw [hnext]
        exact ih2

/-- Pushing a non-decreasing sequence succeeds and leaves exactly the
delta-encoded buffer, the last value, and the grown size. -/
theorem pushAll_spec : ∀ (vs : List Nat) (l : CompressedIntegerList),
    nonDecreasing (l.last :: vs) = true →
    pushAll l vs = .ok ⟨l.mem ++ ofListAux l.last vs, vs.getLastD l.last,
      l.size + vs.length⟩ := by
  intro vs
  induction vs with
  | nil =>
      intro l _
      show Except.ok l = _
      simp [ofListAux]
  | cons v vs ih =>
      intro l hnd
      obtain ⟨hle, hnd'⟩ := nonDecreasing_cons hnd
      show (match PushBack l v with
        | Except.error e => Except.error e
        | Except.ok l' => pushAll l' vs) = _
      unfold PushBack
      rw [if_neg (by omega)]
      show pushAll (⟨l.mem ++ encodeDelta (v - l.last), v, l.size + 1⟩ :
        CompressedIntegerList) vs = _
      rw [ih ⟨l.mem ++ encodeDelta (v - l.last), v, l.size + 1⟩ hnd']
      show Except.ok (⟨(l.mem ++ encodeDelta (v - l.last)) ++ ofListAux v vs,
        vs.getLastD v, l.size + 1 + vs.length⟩ : CompressedIntegerList) = _
      rw [List.append_assoc]
      show _ = Except.ok (⟨l.mem ++ (encodeDelta (v - l.last) ++ ofListAux v vs),
        (v :: vs).getLastD l.last, l.size + (v :: vs).length⟩ : CompressedIntegerList)
      rw [show (v :: vs).getLastD l.last = vs.getLastD v by rw [List.getLastD_cons],
        show l.size + (v :: vs).length = l.size + 1 + vs.length by simp; omega]

theorem nonDecreasing_zero_cons (vs : List Nat) (h : nonDecreasing vs = true) :
    nonDecreasing (0 :: vs) = true := by
  cases vs with
  | nil => rfl
  | cons v vs =>
      unfold nonDecreasing
      simp only [Bool.and_eq_true, decide_eq_true_eq]
      exact ⟨Nat.zero_le v, h⟩

/-- C7: pushing any non-decreasing sequence of naturals into a fresh
`CompressedIntegerList` succeeds; iterating with `GetIterator`/`Get`/`Next`
yields exactly the pushed values in order and then goes invalid, `Size()` is
the sequence length, and `Max()` is the last value (`0` when empty). -/
theorem claim_C7_roundtrip (vs : List Nat) (hnd : nonDecreasing vs = true) :
    ∃ l, pushAll emptyCIL vs = .ok l ∧
      Size l = vs.length ∧
      Max l = vs.getLastD 0 ∧
      iterToList (Size l) (GetIterator l) = vs ∧
      IsValid (advanceN (Size l) (GetIterator l)) = false := by
  have hnd0 := nonDecreasing_zero_cons vs hnd
  have hpush := pushAll_spec vs emptyCIL hnd0
  have hpush' : pushAll emptyCIL vs = .ok ⟨ofListAux 0 vs, vs.getLastD 0, vs.length⟩ := by
    rw [hpush]
    show Except.ok (⟨[] ++ ofListAux 0 vs, vs.getLastD 0, 0 + vs.length⟩ :
      CompressedIntegerList) = _
    rw [List.nil_append, Nat.zero_add]
  refine ⟨_, hpush', rfl, rfl, ?_, ?_⟩
  · show iterToList vs.length (GetIterator (⟨ofListAux 0 vs, vs.getLastD 0, vs.length⟩ :
      CompressedIntegerList)) = vs
    cases vs with
    | nil => rfl
    | cons v vs' =>
        have hit : GetIterator ⟨ofListAux 0 (v :: vs'), (v :: vs').getLastD 0,
            (v :: vs').length⟩ = ⟨ofListAux v vs', v, true⟩ := by
          unfold GetIterator
          show (match decodeDelta (encodeDelta (v - 0) ++ ofListAux v vs') with
            | none => (⟨[], 0, false⟩ : CILIterator)
            | some (d, rest) => ⟨rest, d, true⟩) = _
          rw [decode_encode]
          rfl
        rw [hit]
        exact (iter_run vs' v (nonDecreasing_cons hnd0).2).1
  · show IsValid (advanceN vs.length (GetIterator (⟨ofListAux 0 vs, vs.getLastD 0,
      vs.length⟩ : CompressedIntegerList))) = false
    cases vs with
    | nil => rfl
    | cons v vs' =>
        have hit : GetIterator ⟨ofListAux 0 (v :: vs'), (v :: vs').getLastD 0,
            (v :: vs').length⟩ = ⟨ofListAux v vs', v, true⟩ := by
          unfold GetIterator
          show (match decodeDelta (encodeDelta (v - 0) ++ ofListAux v vs') with
            | none => (⟨[], 0, false⟩ : CILIterator)
            | some (d, rest) => ⟨rest, d, true⟩) = _
          rw [decode_encode]
          rfl
        rw [hit]
        exact (iter_run vs' v (nonDecreasing_cons hnd0).2).2

theorem claim_C7_witness :
    nonDecreasing [0, 0, 3, 3, 10] = true ∧
    (∃ l, pushAll emptyCIL [0, 0, 3, 3, 10] = .ok l ∧
      Size l = [0, 0, 3, 3, 10].length ∧
      Max l = [0, 0, 3, 3, 10].getLastD 0 ∧
      iterToList (Size l) (GetIterator l) = [0, 0, 3, 3, 10] ∧
      IsValid (advanceN (Size l) (GetIterator l)) = false) :=
  ⟨by decide, claim_C7_roundtrip [0, 0, 3, 3, 10] (by decide)⟩

/-- C8: pushing a value strictly smaller than the last pushed value signals the
invalid-argument condition and leaves the observable state — `Size`, `Max`,
and the iteration sequence — exactly as before the call. -/
theorem claim_C8_reject (l : CompressedIntegerList) (v : Nat) (hv : v < Max l) :
    PushBack l v = .error .invalidArgument ∧
    pushState l v = l ∧
    Size (pushState l v) = Size l ∧
    Max (pushState l v) = Max l ∧
    iterToList (Size (pushState l v)) (GetIterator (pushState l v)) =
      iterToList (Size l) (GetIterator l) := by
  have herr : PushBack l v = .error .invalidArgument := by
    unfold PushBack
    rw [if_pos (show v < l.last from hv)]
  have hst : pushState l v = l := by
    unfold pushState
    rw [herr]
  exact ⟨herr, hst, by rw [hst], by rw [hst], by rw [hst]⟩

theorem claim_C8_witness :
    9 < Max exampleCIL ∧
    (PushBack exampleCIL 9 = .error .invalidArgument ∧
    pushState exampleCIL 9 = exampleCIL ∧
    Size (pushState exampleCIL 9) = Size exampleCIL ∧
    Max (pushState exampleCIL 9) = Max exampleCIL ∧
    iterToList (Size (pushState exampleCIL 9)) (GetIterator (pushState exampleCIL 9)) =
      iterToList (Size exampleCIL) (GetIterator exampleCIL)) :=
  ⟨by decide, claim_C8_reject exampleCIL 9 (by decide)⟩

end ELL
